import Mathlib

/-!
Verification of the `dary` double-array trie library.

The development shallowly embeds the Rust sources:
* `src/trie.rs`    — the building trie (`Trie::new/set/get`), the compiler
  `Trie::to_double_array` and the base-searching routine `Trie::find_base`;
* `src/double_array.rs` — the on-disk blob (`DoubleArray::from_arrays`,
  `from_slice`, `get_arrays`) and the lookups (`get`, `prefix_search`,
  `PrefixSearchIter::next`);
* `src/bit_cache.rs` is referenced by `lib.rs` but the file is absent from the
  sources, so the `BitCache` component is modelled from the specification
  (see the doc comment on `BitCache` below).

Machine integers are modelled as `Nat`.  The only silently truncating
operations in the sources are the `as u32` casts when storing into the
BASE/CHECK arrays; the build is therefore computed over `Nat` and the
truncation `% 2^32` is applied when the arrays are packaged into the blob
(`Trie.toDoubleArray`), which is faithful because the build never reads the
stored `u32` values back.  Rust panics (out-of-bounds indexing, failing
`unwrap`) are modelled as `Except.error`; functions that cannot panic are
total.  Value payloads are instantiated at `T = u32` (the repository's own
tests use `Trie<u32>`), serialized by `bincode` as a little-endian `u64`
length prefix followed by little-endian `u32` elements.
-/

namespace Dary

/-! ### Totalised list access helpers -/

theorem getD_append_left {l m : List Nat} {i : Nat} (h : i < l.length) (d : Nat) :
    (l ++ m).getD i d = l.getD i d := by
  induction l generalizing i with
  | nil => simp at h
  | cons a t ih =>
    cases i with
    | zero => rfl
    | succ j => simpa using ih (by simpa using h)

theorem getD_append_right {l m : List Nat} {i : Nat} (h : l.length ≤ i) (d : Nat) :
    (l ++ m).getD i d = m.getD (i - l.length) d := by
  induction l generalizing i with
  | nil => simp
  | cons a t ih =>
    cases i with
    | zero => simp at h
    | succ j => simpa using ih (by simpa using h)

theorem getD_replicate (n i d : Nat) : (List.replicate n 0).getD i d = if i < n then 0 else d := by
  induction n generalizing i with
  | zero => simp [List.getD]
  | succ m ih =>
    cases i with
    | zero => simp [List.replicate]
    | succ j => simpa [List.replicate, Nat.succ_lt_succ_iff] using ih j

theorem getD_set_self {l : List Nat} {i : Nat} (h : i < l.length) (v d : Nat) :
    (l.set i v).getD i d = v := by
  induction l generalizing i with
  | nil => simp at h
  | cons a t ih =>
    cases i with
    | zero => rfl
    | succ j => simpa using ih (by simpa using h)

theorem getD_set_ne {l : List Nat} {i j : Nat} (h : i ≠ j) (v d : Nat) :
    (l.set i v).getD j d = l.getD j d := by
  induction l generalizing i j with
  | nil => rfl
  | cons a t ih =>
    cases i with
    | zero =>
      cases j with
      | zero => exact absurd rfl h
      | succ j' => rfl
    | succ i' =>
      cases j with
      | zero => rfl
      | succ j' =>
        have h' : i' ≠ j' := by omega
        simpa using ih h'

theorem getD_eq_of_ge {l : List Nat} {i : Nat} (h : l.length ≤ i) (d : Nat) :
    l.getD i d = d := by
  induction l generalizing i with
  | nil => rfl
  | cons a t ih =>
    cases i with
    | zero => simp at h
    | succ j => simpa using ih (by simpa using h)

theorem getD_take {l : List Nat} {n i : Nat} (h : i < n) (d : Nat) :
    (l.take n).getD i d = if i < l.length then l.getD i d else d := by
  induction l generalizing n i with
  | nil => simp [List.getD]
  | cons a t ih =>
    cases n with
    | zero => omega
    | succ m =>
      cases i with
      | zero => simp
      | succ j =>
        have h' : j < m := by omega
        simpa [Nat.succ_lt_succ_iff] using ih h'

/-! ### Little-endian byte codec

`to_bytes` in `utils.rs` reinterprets `&[u32]` (resp. the header's `usize`
fields) as raw bytes; on the x86-64 target that is little-endian.  `encLE w x`
is the `w`-byte little-endian encoding of `x % 256^w`. -/

def encLE : Nat → Nat → List Nat
  | 0, _ => []
  | w + 1, x => x % 256 :: encLE w (x / 256)

def decLE : List Nat → Nat
  | [] => 0
  | b :: rest => b + 256 * decLE rest

theorem encLE_length (w x : Nat) : (encLE w x).length = w := by
  induction w generalizing x with
  | zero => rfl
  | succ v ih => simp [encLE, ih]

theorem encLE_lt (w x : Nat) : ∀ b ∈ encLE w x, b < 256 := by
  induction w generalizing x with
  | zero => intro b hb; simp [encLE] at hb
  | succ v ih =>
    intro b hb
    simp only [encLE, List.mem_cons] at hb
    rcases hb with h | h
    · subst h; exact Nat.mod_lt _ (by norm_num)
    · exact ih _ b h

theorem decLE_encLE (w x : Nat) : decLE (encLE w x) = x % 256 ^ w := by
  induction w generalizing x with
  | zero => simp [encLE, decLE, Nat.mod_one]
  | succ v ih =>
    simp only [encLE, decLE, ih]
    rw [pow_succ]
    have hx := Nat.div_add_mod x 256
    have : x / 256 % 256 ^ v * 256 + x % 256 = x % (256 ^ v * 256) := by
      rw [Nat.mul_comm (256 ^ v) 256, Nat.mod_mul]
      ring_nf
    omega

theorem decLE_encLE_of_lt {w x : Nat} (h : x < 256 ^ w) : decLE (encLE w x) = x := by
  rw [decLE_encLE]; exact Nat.mod_eq_of_lt h

def encodeU32 (x : Nat) : List Nat := encLE 4 x

def encodeU64 (x : Nat) : List Nat := encLE 8 x

/-! ### Value codec: `bincode` for `Vec<u32>`

`bincode::serialize(&Vec<u32>)` emits the length as a little-endian `u64`
followed by the elements as little-endian `u32`s; the legacy `deserialize`
entry point allows trailing bytes, so decoding reads a prefix of the slice. -/

def encodeVals (vs : List Nat) : List Nat :=
  encodeU64 vs.length ++ (vs.map encodeU32).flatten

def decodeU32s : Nat → List Nat → Option (List Nat)
  | 0, _ => some []
  | n + 1, b0 :: b1 :: b2 :: b3 :: rest =>
    (decodeU32s n rest).map
      (fun vs => (b0 + 256 * (b1 + 256 * (b2 + 256 * b3))) :: vs)
  | _ + 1, _ => none

def decodeVals (l : List Nat) : Option (List Nat) :=
  match l with
  | b0 :: b1 :: b2 :: b3 :: b4 :: b5 :: b6 :: b7 :: rest =>
    decodeU32s
      (b0 + 256 * (b1 + 256 * (b2 + 256 * (b3 + 256 * (b4 + 256 * (b5 + 256 * (b6 + 256 * b7)))))))
      rest
  | _ => none

theorem decodeU32s_encode {vs : List Nat} (hvs : ∀ v ∈ vs, v < 2 ^ 32) (tail : List Nat) :
    decodeU32s vs.length ((vs.map encodeU32).flatten ++ tail) = some vs := by
  induction vs with
  | nil => rfl
  | cons v t ih =>
    have hv : v < 2 ^ 32 := hvs v (by simp)
    have ht : ∀ x ∈ t, x < 2 ^ 32 := fun x hx => hvs x (by simp [hx])
    have hexp : encodeU32 v = [v % 256, v / 256 % 256, v / 256 / 256 % 256, v / 256 / 256 / 256 % 256] := rfl
    have hval : v % 256 + 256 * (v / 256 % 256 + 256 * (v / 256 / 256 % 256 + 256 * (v / 256 / 256 / 256 % 256))) = v := by
      have h4 : v / 256 / 256 / 256 % 256 = v / 256 / 256 / 256 := by
        apply Nat.mod_eq_of_lt
        omega
      have e1 := Nat.div_add_mod v 256
      have e2 := Nat.div_add_mod (v / 256) 256
      have e3 := Nat.div_add_mod (v / 256 / 256) 256
      omega
    simp only [List.map_cons, List.flatten_cons, hexp, List.length_cons, List.cons_append,
      List.append_assoc]
    simp only [decodeU32s, List.nil_append]
    rw [ih ht]
    simp [hval]

theorem decodeVals_encodeVals {vs : List Nat} (hlen : vs.length < 2 ^ 64)
    (hvs : ∀ v ∈ vs, v < 2 ^ 32) (tail : List Nat) :
    decodeVals (encodeVals vs ++ tail) = some vs := by
  have hexp : encodeU64 vs.length =
      [vs.length % 256, vs.length / 256 % 256, vs.length / 256 / 256 % 256,
       vs.length / 256 / 256 / 256 % 256, vs.length / 256 / 256 / 256 / 256 % 256,
       vs.length / 256 / 256 / 256 / 256 / 256 % 256,
       vs.length / 256 / 256 / 256 / 256 / 256 / 256 % 256,
       vs.length / 256 / 256 / 256 / 256 / 256 / 256 / 256 % 256] := rfl
  have hdec : decLE (encodeU64 vs.length) = vs.length :=
    decLE_encLE_of_lt (by exact_mod_cast hlen)
  rw [hexp] at hdec
  simp only [decLE] at hdec
  simp only [encodeVals, hexp, List.cons_append, List.append_assoc, List.nil_append]
  simp only [decodeVals]
  have hsum : vs.length % 256 + 256 * (vs.length / 256 % 256 + 256 * (vs.length / 256 / 256 % 256 +
      256 * (vs.length / 256 / 256 / 256 % 256 + 256 * (vs.length / 256 / 256 / 256 / 256 % 256 +
      256 * (vs.length / 256 / 256 / 256 / 256 / 256 % 256 +
      256 * (vs.length / 256 / 256 / 256 / 256 / 256 / 256 % 256 +
      256 * (vs.length / 256 / 256 / 256 / 256 / 256 / 256 / 256 % 256))))))) = vs.length := by
    omega
  rw [hsum]
  exact decodeU32s_encode hvs tail

/-! ### The building trie (`src/trie.rs`)

`Node { key, values, nexts }` and `Trie { root, len }` mirror the Rust
structs.  `Trie::set` descends with `binary_search_by` on the sorted children
and inserts at the reported position; on the sorted, duplicate-free child
lists that `set` maintains this coincides with the ordered linear
find/insert used here.  Values are `u32`s (`Nat` in the model). -/

structure Node where
  key    : Nat
  values : List Nat
  nexts  : List Node

structure Trie where
  root : Node
  len  : Nat

mutual

def Node.setK : Node → List Nat → Nat → Node
  | n, [], v => { n with values := n.values ++ [v] }
  | n, k :: ks, v => { n with nexts := insertChild n.nexts k ks v }
termination_by n ks v => (ks.length, 0, 0)

def insertChild : List Node → Nat → List Nat → Nat → List Node
  | [], k, ks, v => [Node.setK ⟨k, [], []⟩ ks v]
  | c :: cs, k, ks, v =>
    if k = c.key then Node.setK c ks v :: cs
    else if k < c.key then Node.setK ⟨k, [], []⟩ ks v :: c :: cs
    else c :: insertChild cs k ks v
termination_by cs k ks v => (ks.length, 1, cs.length)

end

def Trie.new : Trie := ⟨⟨0, [], []⟩, 0⟩

def Trie.set (t : Trie) (key : List Nat) (v : Nat) : Trie :=
  ⟨Node.setK t.root key v, t.len + 1⟩

def findChild : List Node → Nat → Option Node
  | [], _ => none
  | c :: cs, k => if c.key = k then some c else findChild cs k

def Node.getNode : Node → List Nat → Option Node
  | n, [] => some n
  | n, k :: ks =>
    match findChild n.nexts k with
    | some c => Node.getNode c ks
    | none => none

/-- The values stored at the end of `key`, or `[]` when the path is absent. -/
def nodeVals (n : Node) (key : List Nat) : List Nat :=
  match n.getNode key with
  | some m => m.values
  | none => []

def Trie.get (t : Trie) (key : List Nat) : Option (List Nat) :=
  match t.root.getNode key with
  | some n => if n.values = [] then none else some n.values
  | none => none

theorem Trie.get_eq_nodeVals (t : Trie) (key : List Nat) :
    t.get key = if nodeVals t.root key = [] then none else some (nodeVals t.root key) := by
  unfold Trie.get nodeVals
  cases t.root.getNode key <;> simp

/-- Structural invariant of tries reachable through `Trie::new`/`Trie::set`:
children are sorted strictly ascending by key byte, key bytes come from
`&str` data (hence are never `0xFF`), and every childless non-root node
carries at least one value (the final `values.push` of `set`). -/
inductive Node.Good : Node → Prop where
  | mk (n : Node)
      (hsort : n.nexts.Pairwise (fun a b => a.key < b.key))
      (hkeys : ∀ c ∈ n.nexts, c.key < 255)
      (hleaf : ∀ c ∈ n.nexts, c.nexts = [] → c.values ≠ [])
      (hch : ∀ c ∈ n.nexts, Node.Good c) : Node.Good n

theorem Node.Good.sort {n : Node} (h : Node.Good n) :
    n.nexts.Pairwise (fun a b => a.key < b.key) := by cases h; assumption

theorem Node.Good.keys {n : Node} (h : Node.Good n) : ∀ c ∈ n.nexts, c.key < 255 := by
  cases h; assumption

theorem Node.Good.leaf {n : Node} (h : Node.Good n) :
    ∀ c ∈ n.nexts, c.nexts = [] → c.values ≠ [] := by cases h; assumption

theorem Node.Good.ch {n : Node} (h : Node.Good n) : ∀ c ∈ n.nexts, Node.Good c := by
  cases h; assumption

theorem setK_key (n : Node) (ks : List Nat) (v : Nat) : (Node.setK n ks v).key = n.key := by
  cases ks <;> simp [Node.setK]

theorem setK_leaf (n : Node) (ks : List Nat) (v : Nat) :
    (Node.setK n ks v).nexts = [] → (Node.setK n ks v).values ≠ [] := by
  cases ks with
  | nil => intro _; simp [Node.setK]
  | cons k ks' =>
    intro h
    simp only [Node.setK] at h
    exfalso
    cases hcs : n.nexts with
    | nil => rw [hcs] at h; simp [insertChild] at h
    | cons c cs =>
      rw [hcs] at h
      simp only [insertChild] at h
      split at h
      · simp at h
      · split at h <;> simp at h

theorem insertChild_keys (l : List Node) (k : Nat) (ks : List Nat) (v : Nat) :
    ∀ c ∈ insertChild l k ks v, c.key = k ∨ c ∈ l := by
  induction l with
  | nil =>
    intro c hc
    simp only [insertChild, List.mem_singleton] at hc
    subst hc
    exact Or.inl (by simp [setK_key])
  | cons c0 cs ih =>
    intro c hc
    simp only [insertChild] at hc
    split at hc
    · rcases List.mem_cons.mp hc with h | h
      · subst h; exact Or.inl (by simp [setK_key, *])
      · exact Or.inr (by simp [h])
    · split at hc
      · rcases List.mem_cons.mp hc with h | h
        · subst h; exact Or.inl (by simp [setK_key])
        · exact Or.inr h
      · rcases List.mem_cons.mp hc with h | h
        · exact Or.inr (by simp [h])
        · rcases ih c h with h' | h'
          · exact Or.inl h'
          · exact Or.inr (by simp [h'])

theorem insertChild_ne_nil (l : List Node) (k : Nat) (ks : List Nat) (v : Nat) :
    insertChild l k ks v ≠ [] := by
  cases l with
  | nil => simp [insertChild]
  | cons c cs =>
    simp only [insertChild]
    split
    · simp
    · split <;> simp

theorem insertChild_mem (l : List Node) (k : Nat) (ks : List Nat) (v : Nat) :
    ∀ c ∈ insertChild l k ks v,
      c ∈ l ∨ ∃ c0, ((c0 ∈ l ∧ c0.key = k) ∨ c0 = Node.mk k [] []) ∧ c = Node.setK c0 ks v := by
  induction l with
  | nil =>
    intro c hc
    simp only [insertChild, List.mem_singleton] at hc
    exact Or.inr ⟨⟨k, [], []⟩, Or.inr rfl, hc⟩
  | cons c0 cs ih =>
    intro c hc
    simp only [insertChild] at hc
    split at hc
    · rcases List.mem_cons.mp hc with h | h
      · exact Or.inr ⟨c0, Or.inl ⟨by simp, by omega⟩, h⟩
      · exact Or.inl (by simp [h])
    · split at hc
      · rcases List.mem_cons.mp hc with h | h
        · exact Or.inr ⟨⟨k, [], []⟩, Or.inr rfl, h⟩
        · exact Or.inl h
      · rcases List.mem_cons.mp hc with h | h
        · exact Or.inl (by simp [h])
        · rcases ih c h with h' | ⟨c1, hc1, he⟩
          · exact Or.inl (by simp [h'])
          · rcases hc1 with ⟨hm, hk⟩ | hf
            · exact Or.inr ⟨c1, Or.inl ⟨by simp [hm], hk⟩, he⟩
            · exact Or.inr ⟨c1, Or.inr hf, he⟩

theorem insertChild_sorted {l : List Node} (hs : l.Pairwise (fun a b => a.key < b.key))
    (k : Nat) (ks : List Nat) (v : Nat) :
    (insertChild l k ks v).Pairwise (fun a b => a.key < b.key) := by
  induction l with
  | nil => simp [insertChild]
  | cons c0 cs ih =>
    rcases List.pairwise_cons.mp hs with ⟨hhead, htail⟩
    simp only [insertChild]
    split
    · refine List.pairwise_cons.mpr ⟨?_, htail⟩
      intro b hb
      rw [setK_key]
      have := hhead b hb
      omega
    · split
      · refine List.pairwise_cons.mpr ⟨?_, hs⟩
        intro b hb
        rw [setK_key]
        show k < b.key
        rcases List.mem_cons.mp hb with h | h
        · subst h; omega
        · have := hhead b h; omega
      · refine List.pairwise_cons.mpr ⟨?_, ih htail⟩
        intro b hb
        rcases insertChild_mem cs k ks v b hb with h | ⟨c1, hc1, he⟩
        · exact hhead b h
        · subst he
          rw [setK_key]
          rcases hc1 with ⟨hm, hk⟩ | hf
          · rw [hk]; omega
          · subst hf
            show c0.key < k
            omega

theorem good_fresh (k : Nat) : Node.Good ⟨k, [], []⟩ := by
  refine Node.Good.mk _ ?_ ?_ ?_ ?_ <;> simp

theorem setK_good : ∀ (ks : List Nat) (n : Node) (v : Nat), Node.Good n →
    (∀ b ∈ ks, b < 255) → Node.Good (Node.setK n ks v)
  | [], n, v, hg, _ => by
    cases hg with
    | mk _ hsort hkeys hleaf hch =>
      exact Node.Good.mk _ (by simpa [Node.setK] using hsort) (by simpa [Node.setK] using hkeys)
        (by simpa [Node.setK] using hleaf) (by simpa [Node.setK] using hch)
  | k :: ks, n, v, hg, hb => by
    have hk : k < 255 := hb k (by simp)
    have hks : ∀ b ∈ ks, b < 255 := fun b h => hb b (by simp [h])
    cases hg with
    | mk _ hsort hkeys hleaf hch =>
      refine Node.Good.mk _ ?_ ?_ ?_ ?_
      · simpa [Node.setK] using insertChild_sorted hsort k ks v
      · intro c hc
        simp only [Node.setK] at hc
        rcases insertChild_mem _ k ks v c hc with h | ⟨c1, hc1, he⟩
        · exact hkeys c h
        · subst he
          rw [setK_key]
          rcases hc1 with ⟨_, hkk⟩ | hf
          · rw [hkk]; exact hk
          · subst hf; simpa using hk
      · intro c hc
        simp only [Node.setK] at hc
        rcases insertChild_mem _ k ks v c hc with h | ⟨c1, _, he⟩
        · exact hleaf c h
        · subst he; exact setK_leaf c1 ks v
      · intro c hc
        simp only [Node.setK] at hc
        rcases insertChild_mem _ k ks v c hc with h | ⟨c1, hc1, he⟩
        · exact hch c h
        · subst he
          rcases hc1 with ⟨hm, _⟩ | hf
          · exact setK_good ks c1 v (hch c1 hm) hks
          · subst hf; exact setK_good ks _ v (good_fresh k) hks
termination_by ks => ks.length

theorem findChild_none_of_forall {l : List Node} {k : Nat} (h : ∀ c ∈ l, c.key ≠ k) :
    findChild l k = none := by
  induction l with
  | nil => rfl
  | cons c cs ih =>
    simp only [findChild]
    rw [if_neg (h c (by simp))]
    exact ih fun c' hc' => h c' (by simp [hc'])

theorem findChild_insertChild_self {l : List Node}
    (hs : l.Pairwise (fun a b => a.key < b.key)) (k : Nat) (ks : List Nat) (v : Nat) :
    findChild (insertChild l k ks v) k =
      some (Node.setK (match findChild l k with | some c => c | none => ⟨k, [], []⟩) ks v) := by
  induction l with
  | nil => simp [insertChild, findChild, setK_key]
  | cons c0 cs ih =>
    rcases List.pairwise_cons.mp hs with ⟨hhead, htail⟩
    simp only [insertChild]
    split
    · simp only [findChild, setK_key]
      rw [if_pos (by omega), if_pos (by omega)]
    · split
      · have hnone : findChild (c0 :: cs) k = none := by
          apply findChild_none_of_forall
          intro c hc
          rcases List.mem_cons.mp hc with h | h
          · subst h; omega
          · have := hhead c h; omega
        rw [hnone]
        simp [findChild, setK_key]
      · simp only [findChild]
        rw [if_neg (by omega), if_neg (by omega)]
        exact ih htail

theorem findChild_insertChild_ne {l : List Node} {k k' : Nat} (h : k' ≠ k)
    (ks : List Nat) (v : Nat) :
    findChild (insertChild l k ks v) k' = findChild l k' := by
  induction l with
  | nil =>
    simp only [insertChild, findChild, setK_key]
    rw [if_neg (show ¬(Node.mk k [] []).key = k' from fun hc => h (by simpa using hc.symm))]
  | cons c0 cs ih =>
    simp only [insertChild]
    split
    · simp only [findChild, setK_key]
      rw [if_neg (by omega), if_neg (by omega)]
    · split
      · simp only [findChild, setK_key]
        rw [if_neg (show ¬(Node.mk k [] []).key = k' from fun hc => h (by simpa using hc.symm))]
      · simp only [findChild]
        split
        · rfl
        · exact ih

theorem findChild_mem {l : List Node} {k : Nat} {c : Node} (h : findChild l k = some c) :
    c ∈ l := by
  induction l with
  | nil => simp [findChild] at h
  | cons c0 cs ih =>
    simp only [findChild] at h
    split at h
    · simp only [Option.some.injEq] at h
      simp [h]
    · simp [ih h]

theorem nodeVals_fresh (k : Nat) (ks : List Nat) : nodeVals ⟨k, [], []⟩ ks = [] := by
  cases ks <;> simp [nodeVals, Node.getNode, findChild]

theorem nodeVals_setK_self : ∀ (ks : List Nat) (n : Node) (v : Nat), Node.Good n →
    nodeVals (Node.setK n ks v) ks = nodeVals n ks ++ [v]
  | [], n, v, _ => by simp [Node.setK, nodeVals, Node.getNode]
  | k :: ks, n, v, hg => by
    have hfs := findChild_insertChild_self hg.sort k ks v
    simp only [nodeVals, Node.setK, Node.getNode, hfs]
    cases hf : findChild n.nexts k with
    | some c =>
      have hgc : Node.Good c := hg.ch c (findChild_mem hf)
      rw [hf] at hfs
      simpa [nodeVals] using nodeVals_setK_self ks c v hgc
    | none =>
      rw [hf] at hfs
      have := nodeVals_setK_self ks ⟨k, [], []⟩ v (good_fresh k)
      rw [nodeVals_fresh] at this
      simpa [nodeVals] using this
termination_by ks => ks.length

theorem nodeVals_setK_ne : ∀ (ks key' : List Nat) (n : Node) (v : Nat), Node.Good n →
    key' ≠ ks → nodeVals (Node.setK n ks v) key' = nodeVals n key'
  | [], [], _, _, _, hne => absurd rfl hne
  | [], k' :: r', n, v, _, _ => by
    simp [Node.setK, nodeVals, Node.getNode]
  | k :: ks, [], n, v, _, _ => by
    simp [Node.setK, nodeVals, Node.getNode]
  | k :: ks, k' :: r', n, v, hg, hne => by
    by_cases hk : k' = k
    · subst hk
      have hr : r' ≠ ks := fun hc => hne (by rw [hc])
      have hfs := findChild_insertChild_self hg.sort k' ks v
      simp only [nodeVals, Node.setK, Node.getNode, hfs]
      cases hf : findChild n.nexts k' with
      | some c =>
        have hgc : Node.Good c := hg.ch c (findChild_mem hf)
        rw [hf] at hfs
        simpa [nodeVals] using nodeVals_setK_ne ks r' c v hgc hr
      | none =>
        rw [hf] at hfs
        have := nodeVals_setK_ne ks r' ⟨k', [], []⟩ v (good_fresh k') hr
        rw [nodeVals_fresh] at this
        simpa [nodeVals] using this
    · have hfs := findChild_insertChild_ne (l := n.nexts) hk ks v
      simp only [nodeVals, Node.setK, Node.getNode, hfs]
termination_by ks => ks.length

/-! #### Folding a list of insertions -/

def trieOf (L : List (List Nat × Nat)) : Trie :=
  L.foldl (fun t kv => t.set kv.1 kv.2) Trie.new

/-- The values inserted for `k`, in the order of the `set` calls. -/
def insVals (L : List (List Nat × Nat)) (k : List Nat) : List Nat :=
  L.filterMap (fun kv => if kv.1 = k then some kv.2 else none)

theorem nodeVals_foldl (L : List (List Nat × Nat)) :
    ∀ (t : Trie), Node.Good t.root → (∀ kv ∈ L, ∀ b ∈ kv.1, b < 255) → ∀ k,
      nodeVals (L.foldl (fun t kv => t.set kv.1 kv.2) t).root k = nodeVals t.root k ++ insVals L k := by
  induction L with
  | nil => intro t _ _ k; simp [insVals]
  | cons kv L' ih =>
    intro t hg hb k
    have hbkv : ∀ b ∈ kv.1, b < 255 := hb kv (by simp)
    have hb' : ∀ kv' ∈ L', ∀ b ∈ kv'.1, b < 255 := fun kv' h => hb kv' (by simp [h])
    have hg' : Node.Good (t.set kv.1 kv.2).root := setK_good kv.1 t.root kv.2 hg hbkv
    simp only [List.foldl_cons]
    rw [ih (t.set kv.1 kv.2) hg' hb' k]
    by_cases hk : kv.1 = k
    · subst hk
      rw [show (t.set kv.1 kv.2).root = Node.setK t.root kv.1 kv.2 from rfl,
        nodeVals_setK_self kv.1 t.root kv.2 hg]
      simp [insVals]
    · rw [show (t.set kv.1 kv.2).root = Node.setK t.root kv.1 kv.2 from rfl,
        nodeVals_setK_ne kv.1 k t.root kv.2 hg (fun hc => hk hc.symm)]
      simp [insVals, hk]

theorem good_foldl (L : List (List Nat × Nat)) :
    ∀ (t : Trie), Node.Good t.root → (∀ kv ∈ L, ∀ b ∈ kv.1, b < 255) →
      Node.Good ((L.foldl (fun t kv => t.set kv.1 kv.2) t).root) := by
  induction L with
  | nil => intro t hg _; exact hg
  | cons kv L' ih =>
    intro t hg hb'
    exact ih (t.set kv.1 kv.2) (setK_good kv.1 t.root kv.2 hg (hb' kv (by simp)))
      (fun kv' h => hb' kv' (by simp [h]))

theorem good_trieOf (L : List (List Nat × Nat)) (hb : ∀ kv ∈ L, ∀ b ∈ kv.1, b < 255) :
    Node.Good (trieOf L).root :=
  good_foldl L Trie.new (good_fresh 0) hb

theorem nodeVals_trieOf (L : List (List Nat × Nat)) (hb : ∀ kv ∈ L, ∀ b ∈ kv.1, b < 255)
    (k : List Nat) : nodeVals (trieOf L).root k = insVals L k := by
  have h1 := nodeVals_foldl L Trie.new (good_fresh 0) hb k
  have h2 : nodeVals Trie.new.root k = [] := nodeVals_fresh 0 k
  rw [trieOf, h1, h2]
  simp

theorem setK_nexts_ne_nil {ks : List Nat} (h : ks ≠ []) (n : Node) (v : Nat) :
    (Node.setK n ks v).nexts ≠ [] := by
  cases ks with
  | nil => exact absurd rfl h
  | cons k r => simpa [Node.setK] using insertChild_ne_nil n.nexts k r v

theorem setK_nexts_mono {n : Node} (h : n.nexts ≠ []) (ks : List Nat) (v : Nat) :
    (Node.setK n ks v).nexts ≠ [] := by
  cases ks with
  | nil => simpa [Node.setK] using h
  | cons k r => simpa [Node.setK] using insertChild_ne_nil n.nexts k r v

theorem nexts_ne_foldl (L : List (List Nat × Nat)) :
    ∀ (t : Trie), ((∃ kv ∈ L, kv.1 ≠ []) ∨ t.root.nexts ≠ []) →
      (L.foldl (fun t kv => t.set kv.1 kv.2) t).root.nexts ≠ [] := by
  induction L with
  | nil =>
    intro t ht
    rcases ht with ⟨kv, h1, _⟩ | h2
    · simp at h1
    · exact h2
  | cons kv L' ih =>
    intro t ht
    simp only [List.foldl_cons]
    apply ih
    rcases ht with ⟨kv', hmem, hne⟩ | h2
    · rcases List.mem_cons.mp hmem with h | h
      · rw [h] at hne
        exact Or.inr (setK_nexts_ne_nil hne t.root kv.2)
      · exact Or.inl ⟨kv', h, hne⟩
    · exact Or.inr (setK_nexts_mono h2 kv.1 kv.2)

theorem trieOf_root_nexts_ne (L : List (List Nat × Nat)) (hx : ∃ kv ∈ L, kv.1 ≠ []) :
    (trieOf L).root.nexts ≠ [] :=
  nexts_ne_foldl L Trie.new (Or.inl hx)

theorem nexts_nil_foldl (L : List (List Nat × Nat)) :
    ∀ (t : Trie), t.root.nexts = [] → (∀ kv ∈ L, kv.1 = []) →
      (L.foldl (fun t kv => t.set kv.1 kv.2) t).root.nexts = [] := by
  induction L with
  | nil => intro t ht _; exact ht
  | cons kv L' ih =>
    intro t ht hall
    simp only [List.foldl_cons]
    apply ih
    · have : kv.1 = [] := hall kv (by simp)
      rw [show (t.set kv.1 kv.2).root = Node.setK t.root kv.1 kv.2 from rfl, this]
      simpa [Node.setK] using ht
    · exact fun kv' h => hall kv' (by simp [h])

theorem trieOf_root_nexts_nil (L : List (List Nat × Nat)) (hx : ∀ kv ∈ L, kv.1 = []) :
    (trieOf L).root.nexts = [] :=
  nexts_nil_foldl L Trie.new rfl hx

/-! ### BitCache

Modelled from the spec: `src/bit_cache.rs` is declared by `lib.rs` but the
file is absent from the sources.  Per §4.1 of the specification the BitCache
is the set of occupied indices together with a search cursor that "never
retreats past known-full prefixes": `set i` marks an index occupied
(idempotent), `get i` tests occupancy (0/1), `update_start` advances the
cursor over the known-full prefix, `find_empty_idx offset` returns the
smallest unoccupied index at or after `cursor + offset`, and
`last_index_of_one` is the greatest occupied index (or none).  The
repository's own unit test `test_find_base_1` in `trie.rs` additionally pins
down that on a fresh cache the first `find_empty_idx` already yields 256, so
the 256-slot root region is never offered; `findEmptyIdx` reproduces this
with the `max _ 256` floor. -/

structure BitCache where
  bits   : List Nat
  cursor : Nat

def BitCache.new : BitCache := ⟨[], 0⟩

def BitCache.set (bc : BitCache) (i : Nat) : BitCache := { bc with bits := i :: bc.bits }

def BitCache.get (bc : BitCache) (i : Nat) : Nat := if i ∈ bc.bits then 1 else 0

/-- Greatest element of a list of occupied indices (0 when empty). -/
def maxList (l : List Nat) : Nat := l.foldr max 0

theorem le_maxList {l : List Nat} {x : Nat} (h : x ∈ l) : x ≤ maxList l := by
  induction l with
  | nil => simp at h
  | cons a t ih =>
    rcases List.mem_cons.mp h with h' | h'
    · subst h'; simp [maxList]
    · have := ih h'
      simp only [maxList, List.foldr_cons]
      have : x ≤ t.foldr max 0 := this
      omega

/-- Smallest index `≥ i` not in `bits`, computed by a linear scan whose fuel
`bits.length + 1` is always sufficient (pigeonhole over the occupied set). -/
def leastFreeAux (bits : List Nat) : Nat → Nat → Nat
  | 0, i => i
  | fuel + 1, i => if i ∈ bits then leastFreeAux bits fuel (i + 1) else i

def leastFree (bits : List Nat) (i : Nat) : Nat := leastFreeAux bits (bits.length + 1) i

theorem leastFreeAux_ge (bits : List Nat) (fuel i : Nat) : i ≤ leastFreeAux bits fuel i := by
  induction fuel generalizing i with
  | zero => simp [leastFreeAux]
  | succ f ih =>
    simp only [leastFreeAux]
    split
    · have := ih (i + 1); omega
    · omega

theorem filter_length_mono (bits : List Nat) (i : Nat) :
    (bits.filter (fun x => i + 1 ≤ x)).length ≤ (bits.filter (fun x => i ≤ x)).length := by
  induction bits with
  | nil => simp
  | cons a t ih =>
    simp only [List.filter_cons, decide_eq_true_eq]
    by_cases h1 : i + 1 ≤ a
    · rw [if_pos h1, if_pos (show i ≤ a by omega)]
      simp only [List.length_cons]
      omega
    · rw [if_neg h1]
      by_cases h2 : i ≤ a
      · rw [if_pos h2]
        simp only [List.length_cons]
        omega
      · rw [if_neg h2]
        exact ih

theorem filter_length_lt {bits : List Nat} {i : Nat} (h : i ∈ bits) :
    (bits.filter (fun x => i + 1 ≤ x)).length < (bits.filter (fun x => i ≤ x)).length := by
  induction bits with
  | nil => simp at h
  | cons a t ih =>
    simp only [List.filter_cons, decide_eq_true_eq]
    rcases List.mem_cons.mp h with h' | h'
    · rw [if_neg (show ¬ i + 1 ≤ a by omega), if_pos (show i ≤ a by omega)]
      simp only [List.length_cons]
      have := filter_length_mono t i
      omega
    · have hlt := ih h'
      by_cases h1 : i + 1 ≤ a
      · rw [if_pos h1, if_pos (show i ≤ a by omega)]
        simp only [List.length_cons]
        omega
      · rw [if_neg h1]
        by_cases h2 : i ≤ a
        · rw [if_pos h2]
          simp only [List.length_cons]
          omega
        · rw [if_neg h2]
          exact hlt

theorem leastFreeAux_not_mem (bits : List Nat) :
    ∀ (fuel i : Nat), (bits.filter (fun x => i ≤ x)).length < fuel →
      leastFreeAux bits fuel i ∉ bits
  | 0, i, h => by omega
  | fuel + 1, i, h => by
    simp only [leastFreeAux]
    split
    · rename_i hm
      apply leastFreeAux_not_mem bits fuel (i + 1)
      have := filter_length_lt hm
      omega
    · assumption

theorem leastFree_not_mem (bits : List Nat) (i : Nat) : leastFree bits i ∉ bits := by
  apply leastFreeAux_not_mem
  have := List.length_filter_le (fun x => i ≤ x) bits
  omega

theorem leastFree_ge (bits : List Nat) (i : Nat) : i ≤ leastFree bits i :=
  leastFreeAux_ge bits _ i

theorem leastFreeAux_min (bits : List Nat) :
    ∀ (fuel i j : Nat), i ≤ j → j < leastFreeAux bits fuel i → j ∈ bits
  | 0, i, j, h1, h2 => by simp [leastFreeAux] at h2; omega
  | fuel + 1, i, j, h1, h2 => by
    simp only [leastFreeAux] at h2
    split at h2
    · rename_i hm
      by_cases hij : j = i
      · subst hij; exact hm
      · exact leastFreeAux_min bits fuel (i + 1) j (by omega) h2
    · omega

theorem leastFree_le_of_not_mem {bits : List Nat} {i f : Nat} (h1 : i ≤ f) (h2 : f ∉ bits) :
    leastFree bits i ≤ f := by
  by_contra h
  push_neg at h
  exact h2 (leastFreeAux_min bits (bits.length + 1) i f h1 h)

theorem leastFree_le_max (bits : List Nat) (i : Nat) :
    leastFree bits i ≤ max i (maxList bits + 1) := by
  apply leastFree_le_of_not_mem
  · omega
  · intro hmem
    have := le_maxList hmem
    omega

def BitCache.updateStart (bc : BitCache) : BitCache :=
  { bc with cursor := leastFree bc.bits bc.cursor }

def BitCache.findEmptyIdx (bc : BitCache) (offset : Nat) : Nat :=
  leastFree bc.bits (max (bc.cursor + offset) 256)

def BitCache.lastIndexOfOne (bc : BitCache) : Option Nat :=
  match bc.bits with
  | [] => none
  | _ => some (maxList bc.bits)

/-! ### `Trie::find_base` (trie.rs)

`none` models the two panics of the source (`nodes` empty, and
`empty_idx < 256`).  The offset sweep of the source's `'outer` loop runs on
explicit fuel; `findBaseAux_isSome` shows the fuel chosen in `findBase`
never runs out. -/

def findBaseAux (nodes : List Node) (firstKey : Nat) (bc : BitCache) :
    Nat → Nat → Option Nat
  | 0, _ => none
  | fuel + 1, offset =>
    let emptyIdx := bc.findEmptyIdx offset
    let newBase := emptyIdx - firstKey
    if emptyIdx < 256 then none
    else if nodes.any (fun c => bc.get (newBase + c.key) != 0) then
      findBaseAux nodes firstKey bc fuel (offset + 1)
    else some newBase

def findBase (nodes : List Node) (bc : BitCache) : Option Nat :=
  match nodes with
  | [] => none
  | n0 :: _ => findBaseAux nodes n0.key bc (maxList bc.bits + n0.key + 2) 0

theorem findBaseAux_fits {nodes : List Node} {firstKey : Nat} {bc : BitCache} :
    ∀ {fuel offset b : Nat}, findBaseAux nodes firstKey bc fuel offset = some b →
      ∀ c ∈ nodes, (b + c.key) ∉ bc.bits
  | 0, offset, b, h => by simp [findBaseAux] at h
  | fuel + 1, offset, b, h => by
    simp only [findBaseAux] at h
    split at h
    · exact absurd h (by simp)
    · split at h
      · exact findBaseAux_fits h
      · rename_i hany
        simp only [Option.some.injEq] at h
        subst h
        intro c hc hmem
        apply hany
        simp only [List.any_eq_true]
        refine ⟨c, hc, ?_⟩
        simp [BitCache.get, hmem]

theorem findBaseAux_ge256 {nodes : List Node} {firstKey : Nat} (hfk : firstKey < 256)
    {bc : BitCache} :
    ∀ {fuel offset b : Nat}, findBaseAux nodes firstKey bc fuel offset = some b →
      256 ≤ b + firstKey ∧ (b + firstKey) ∉ bc.bits
  | 0, offset, b, h => by simp [findBaseAux] at h
  | fuel + 1, offset, b, h => by
    simp only [findBaseAux] at h
    split at h
    · exact absurd h (by simp)
    · split at h
      · exact findBaseAux_ge256 hfk h
      · rename_i hlt hany
        simp only [Option.some.injEq] at h
        have hge : 256 ≤ bc.findEmptyIdx offset := by omega
        have hfree : bc.findEmptyIdx offset ∉ bc.bits := leastFree_not_mem _ _
        have harith : b + firstKey = bc.findEmptyIdx offset := by omega
        rw [harith]
        exact ⟨hge, hfree⟩

theorem findBaseAux_isSome (nodes : List Node) (firstKey : Nat) (bc : BitCache) :
    ∀ (fuel offset : Nat), 1 ≤ fuel →
      maxList bc.bits + firstKey + 2 ≤ fuel + bc.cursor + offset →
      (findBaseAux nodes firstKey bc fuel offset).isSome
  | 0, offset, hf, _ => by omega
  | fuel + 1, offset, _, hbound => by
    simp only [findBaseAux]
    have hge : 256 ≤ bc.findEmptyIdx offset :=
      le_trans (le_max_right _ _) (leastFree_ge _ _)
    rw [if_neg (by omega)]
    split
    · rename_i hany
      by_cases hcase : bc.cursor + offset > maxList bc.bits + firstKey
      · exfalso
        have he : bc.cursor + offset ≤ bc.findEmptyIdx offset :=
          le_trans (le_max_left _ _) (leastFree_ge _ _)
        simp only [List.any_eq_true] at hany
        rcases hany with ⟨c, _, hc⟩
        simp only [BitCache.get, bne_iff_ne, ne_eq, ite_eq_right_iff] at hc
        by_cases hmem : bc.findEmptyIdx offset - firstKey + c.key ∈ bc.bits
        · have := le_maxList hmem
          omega
        · simp [hmem] at hc
      · exact findBaseAux_isSome nodes firstKey bc fuel (offset + 1) (by omega) (by omega)
    · simp

theorem findBaseAux_min {nodes : List Node} {firstKey : Nat} {bc : BitCache}
    (hfk : ∃ c ∈ nodes, c.key = firstKey) :
    ∀ {fuel offset b : Nat}, findBaseAux nodes firstKey bc fuel offset = some b →
      ∀ b', max (bc.cursor + offset) 256 ≤ b' + firstKey →
        (∀ c ∈ nodes, (b' + c.key) ∉ bc.bits) → b ≤ b'
  | 0, offset, b, h => by simp [findBaseAux] at h
  | fuel + 1, offset, b, h => by
    intro b' hstart hfree
    simp only [findBaseAux] at h
    split at h
    · exact absurd h (by simp)
    · rename_i hlt
      have hbfree : (b' + firstKey) ∉ bc.bits := by
        rcases hfk with ⟨c0, hc0, hk0⟩
        have := hfree c0 hc0
        rw [hk0] at this
        exact this
      have hle : bc.findEmptyIdx offset ≤ b' + firstKey :=
        leastFree_le_of_not_mem hstart hbfree
      split at h
      · rename_i hany
        by_cases heq : bc.findEmptyIdx offset = b' + firstKey
        · exfalso
          simp only [List.any_eq_true] at hany
          rcases hany with ⟨c, hc, hget⟩
          simp only [BitCache.get, bne_iff_ne, ne_eq, ite_eq_right_iff] at hget
          have hnb : bc.findEmptyIdx offset - firstKey = b' := by omega
          rw [hnb] at hget
          by_cases hmem : b' + c.key ∈ bc.bits
          · exact hfree c hc hmem
          · simp [hmem] at hget
        · have hcur : bc.cursor + offset ≤ bc.findEmptyIdx offset :=
            le_trans (le_max_left _ _) (leastFree_ge _ _)
          apply findBaseAux_min hfk h b'
          · omega
          · exact hfree
      · simp only [Option.some.injEq] at h
        omega

theorem findBase_nil (bc : BitCache) : findBase [] bc = none := rfl

theorem findBase_isSome {nodes : List Node} (h : nodes ≠ []) (bc : BitCache) :
    (findBase nodes bc).isSome := by
  cases nodes with
  | nil => exact absurd rfl h
  | cons n0 rest =>
    simp only [findBase]
    exact findBaseAux_isSome _ _ bc _ 0 (by omega) (by omega)

theorem findBase_fits {nodes : List Node} {bc : BitCache} {b : Nat}
    (h : findBase nodes bc = some b) : ∀ c ∈ nodes, (b + c.key) ∉ bc.bits := by
  cases nodes with
  | nil => simp [findBase] at h
  | cons n0 rest => exact findBaseAux_fits h

theorem findBase_le {nodes : List Node} {bc : BitCache} {b L : Nat}
    (h : findBase nodes bc = some b) (hbits : ∀ x ∈ bc.bits, x < L)
    (hcur : bc.cursor ≤ L) (hL : 256 ≤ L) : b ≤ L := by
  cases nodes with
  | nil => simp [findBase] at h
  | cons n0 rest =>
    simp only [findBase] at h
    apply findBaseAux_min ⟨n0, by simp, rfl⟩ h L
    · simp only [Nat.add_zero]
      have h1 : bc.cursor ≤ L + n0.key := by omega
      have h2 : 256 ≤ L + n0.key := by omega
      omega
    · intro c _ hmem
      have := hbits _ hmem
      omega

/-! ### `Trie::to_double_array` (trie.rs)

The while-loop threads `(len, base_arr, check_arr, data_arr, bit_cache)` and
the work stack exactly as the source does; the loop runs on explicit fuel
(each iteration shrinks the total node count on the stack by exactly one),
and `none` propagates `find_base`'s panics and fuel exhaustion — both shown
unreachable for tries built through `Trie::set`.  BASE/CHECK entries are kept
as `Nat` here; the `as u32` truncation is applied in `Trie.toDoubleArray`. -/

mutual

def nodeSize : Node → Nat
  | ⟨_, _, nexts⟩ => 1 + nodesSize nexts

def nodesSize : List Node → Nat
  | [] => 0
  | c :: cs => nodeSize c + nodesSize cs

end

def stackSize : List (Nat × Node) → Nat
  | [] => 0
  | (_, n) :: rest => nodeSize n + stackSize rest

structure BuildState where
  len   : Nat
  base  : List Nat
  check : List Nat
  data  : List Nat
  bc    : BitCache

/-- The `for n in node.nexts` loop of `to_double_array`: place every child at
`base + key`, writing value nodes (`key == 0xFF`) into DATA and pushing the
others onto the work stack (Rust's `Vec::push` appends, so the model conses —
head of the list is the top of the stack). -/
def placeChildren (curr : Nat) (values : List Nat) (b : Nat) :
    List Node → BuildState → List (Nat × Node) → BuildState × List (Nat × Node)
  | [], st, stack => (st, stack)
  | c :: cs, st, stack =>
    let i := b + c.key
    let bc' := st.bc.set i
    let check' := st.check.set i curr
    if c.key = 255 then
      let base' := st.base.set i st.data.length
      let data' := st.data ++ encodeVals values
      placeChildren curr values b cs ⟨st.len, base', check', data', bc'⟩ stack
    else
      placeChildren curr values b cs ⟨st.len, st.base, check', st.data, bc'⟩ ((i, c) :: stack)

def buildLoop : Nat → BuildState → List (Nat × Node) → Option BuildState
  | _, st, [] => some st
  | 0, _, _ :: _ => none
  | fuel + 1, st, (curr, node) :: stack =>
    let bc1 := st.bc.updateStart
    let nexts1 := if node.values.isEmpty then node.nexts else node.nexts ++ [⟨255, [], []⟩]
    match findBase nexts1 bc1 with
    | none => none
    | some b =>
      let base1 := st.base.set curr b
      let st2 : BuildState :=
        if b + 256 ≥ st.len then
          ⟨st.len * 2, base1 ++ List.replicate st.len 0, st.check ++ List.replicate st.len 0,
            st.data, bc1⟩
        else ⟨st.len, base1, st.check, st.data, bc1⟩
      let res := placeChildren curr node.values b nexts1 st2 stack
      buildLoop fuel res.1 res.2

/-- `Vec::resize(n, 0)`. -/
def resizeTo (l : List Nat) (n : Nat) : List Nat :=
  l.take n ++ List.replicate (n - l.length) 0

/-- `Trie::to_double_array` up to (but not including) the final
`DoubleArray::from_arrays` call: the `(base_arr, check_arr, data_arr)`
triple, still with untruncated `Nat` entries. -/
def Trie.buildArrays (t : Trie) : Option (List Nat × List Nat × List Nat) :=
  let maxKey := 256
  let len0 := if maxKey > 4 * t.len then maxKey else 4 * t.len
  let st0 : BuildState :=
    ⟨len0, List.replicate len0 0, List.replicate len0 0, [], (BitCache.new.set 0).set 1⟩
  let stack0 : List (Nat × Node) := if t.root.nexts.isEmpty then [] else [(1, t.root)]
  match buildLoop (nodeSize t.root + 1) st0 stack0 with
  | none => none
  | some st =>
    let newLen :=
      match st.bc.lastIndexOfOne with
      | none => maxKey
      | some m => m + maxKey
    some (resizeTo st.base newLen, resizeTo st.check newLen, st.data)

/-! ### `DoubleArray` (double_array.rs)

The blob is `header ++ BASE bytes ++ CHECK bytes ++ DATA`; the header is the
in-memory `DoubleArrayHeader` struct (five 8-byte `usize` fields, raw-copied,
hence little-endian on the target).  `from_arrays` can only fail on mmap I/O,
which is out of scope, so it is total here.  `from_slice` performs no
validation whatsoever: it copies the bytes and `ptr::read`s the header
(reading past a too-short mapping — under 40 bytes, or the zero-length
anonymous map — is modelled as an error). -/

structure DoubleArrayHeader where
  base_idx  : Nat
  check_idx : Nat
  data_idx  : Nat
  base_len  : Nat
  check_len : Nat

def headerSize : Nat := 40

def encodeHeader (h : DoubleArrayHeader) : List Nat :=
  encodeU64 h.base_idx ++ encodeU64 h.check_idx ++ encodeU64 h.data_idx ++
    encodeU64 h.base_len ++ encodeU64 h.check_len

def u64At (bytes : List Nat) (off : Nat) : Nat :=
  bytes.getD off 0 + 256 * (bytes.getD (off + 1) 0 + 256 * (bytes.getD (off + 2) 0 +
    256 * (bytes.getD (off + 3) 0 + 256 * (bytes.getD (off + 4) 0 +
    256 * (bytes.getD (off + 5) 0 + 256 * (bytes.getD (off + 6) 0 +
    256 * bytes.getD (off + 7) 0))))))

def decodeHeader (bytes : List Nat) : DoubleArrayHeader :=
  ⟨u64At bytes 0, u64At bytes 8, u64At bytes 16, u64At bytes 24, u64At bytes 32⟩

structure DoubleArray where
  bytes  : List Nat
  header : DoubleArrayHeader

def DoubleArray.fromArrays (baseArr checkArr dataBytes : List Nat) : DoubleArray :=
  let baseBytes := (baseArr.map encodeU32).flatten
  let checkBytes := (checkArr.map encodeU32).flatten
  let header : DoubleArrayHeader :=
    ⟨headerSize, headerSize + baseBytes.length, headerSize + baseBytes.length + checkBytes.length,
      baseArr.length, checkArr.length⟩
  ⟨encodeHeader header ++ baseBytes ++ checkBytes ++ dataBytes, header⟩

def DoubleArray.fromSlice (bytes : List Nat) : Except String DoubleArray :=
  if bytes.length < headerSize then .error "memory map too short for the header"
  else .ok ⟨bytes, decodeHeader bytes⟩

/-- `Trie::to_double_array`, ending in `DoubleArray::from_arrays`; the
`map (· % 2 ^ 32)` is the `as u32` cast applied to every stored entry. -/
def Trie.toDoubleArray (t : Trie) : Option DoubleArray :=
  match t.buildArrays with
  | none => none
  | some (b, c, d) =>
    some (DoubleArray.fromArrays (b.map (· % 2 ^ 32)) (c.map (· % 2 ^ 32)) d)

def u32SliceAt (bytes : List Nat) (off n : Nat) : List Nat :=
  (List.range n).map (fun j =>
    bytes.getD (off + 4 * j) 0 + 256 * (bytes.getD (off + 4 * j + 1) 0 +
      256 * (bytes.getD (off + 4 * j + 2) 0 + 256 * bytes.getD (off + 4 * j + 3) 0)))

/-- `get_arrays`: slice the mapping at the header's offsets and reinterpret
BASE/CHECK as `u32` slices.  A region reaching past the mapping is a panic
(`&mmap[idx..]`) or out-of-bounds `from_raw_parts` read; both are `.error`. -/
def DoubleArray.getArrays (da : DoubleArray) : Except String (List Nat × List Nat × List Nat) :=
  let h := da.header
  let L := da.bytes.length
  if h.base_idx ≤ L ∧ h.base_idx + 4 * h.base_len ≤ L ∧ h.check_idx ≤ L ∧
      h.check_idx + 4 * h.check_len ≤ L ∧ h.data_idx ≤ L then
    .ok (u32SliceAt da.bytes h.base_idx h.base_len, u32SliceAt da.bytes h.check_idx h.check_len,
      da.bytes.drop h.data_idx)
  else .error "get_arrays region out of range"

/-! ### Lookups (double_array.rs) -/

/-- Rust slice indexing `arr[i]`: panics (`.error`) when out of bounds. -/
def readArr (l : List Nat) (i : Nat) : Except String Nat :=
  if i < l.length then .ok (l.getD i 0) else .error "index out of bounds"

def getAux (baseArr checkArr dataArr : List Nat) :
    List Nat → Nat → Nat → Except String (Option (List Nat))
  | [], idx, b => do
    let cv ← readArr checkArr (b + 255)
    if cv = idx then do
      let dIdx ← readArr baseArr (b + 255)
      if dataArr.length < dIdx then .error "start index out of range"
      else
        match decodeVals (dataArr.drop dIdx) with
        | some vs => .ok (some vs)
        | none => .error "deserialization failed"
    else .ok none
  | byte :: rest, idx, b => do
    let nextIdx := b + byte
    let cv ← readArr checkArr nextIdx
    if cv = idx then do
      let b2 ← readArr baseArr nextIdx
      getAux baseArr checkArr dataArr rest nextIdx b2
    else .ok none

/-- `DoubleArray::get`. -/
def DoubleArray.get (da : DoubleArray) (key : List Nat) : Except String (Option (List Nat)) := do
  let arrs ← da.getArrays
  let b ← readArr arrs.1 1
  getAux arrs.1 arrs.2.1 arrs.2.2 key 1 b

def pfxAux (baseArr checkArr dataArr full : List Nat) :
    List Nat → Nat → Nat → Nat → List (List Nat × List Nat) →
    Except String (List (List Nat × List Nat))
  | [], _, _, _, acc => .ok acc
  | byte :: rest, idx, b, pos, acc => do
    let nextIdx := b + byte
    let cv ← readArr checkArr nextIdx
    if cv = idx then do
      let b2 ← readArr baseArr nextIdx
      let cv2 ← readArr checkArr (b2 + 255)
      if cv2 = nextIdx then do
        let dIdx ← readArr baseArr (b2 + 255)
        if dataArr.length < dIdx then .error "start index out of range"
        else
          match decodeVals (dataArr.drop dIdx) with
          | some vs =>
            pfxAux baseArr checkArr dataArr full rest nextIdx b2 (pos + 1)
              (acc ++ [(full.take (pos + 1), vs)])
          | none => .error "deserialization failed"
      else pfxAux baseArr checkArr dataArr full rest nextIdx b2 (pos + 1) acc
    else .ok acc

/-- `DoubleArray::prefix_search`; a reported pair is `(&key[0..i+1], values)`,
modelled as `(key.take (i+1), values)`. -/
def DoubleArray.pfxSearch (da : DoubleArray) (key : List Nat) :
    Except String (List (List Nat × List Nat)) := do
  let arrs ← da.getArrays
  let b ← readArr arrs.1 1
  pfxAux arrs.1 arrs.2.1 arrs.2.2 key key 1 b 0 []

/-! The prefix-search iterator.  Its state is `(key_ptr, key, arr_ptr)` plus
the three array slices; here the key suffix `key.drop key_ptr` is carried
explicitly (as `rest`) so that `next` is structurally recursive. -/

def psNextAux (baseArr checkArr dataArr full : List Nat) :
    List Nat → Nat → Nat → Nat →
    Except String (Option ((List Nat × List Nat) × (List Nat × Nat × Nat)))
  | [], _, _, _ => .ok none
  | byte :: rest, arrPtr, keyPtr, b => do
    let nextIdx := b + byte
    let cv ← readArr checkArr nextIdx
    if cv = arrPtr then do
      let b2 ← readArr baseArr nextIdx
      let cv2 ← readArr checkArr (b2 + 255)
      if cv2 = nextIdx then do
        let dIdx ← readArr baseArr (b2 + 255)
        if dataArr.length < dIdx then .error "start index out of range"
        else
          match decodeVals (dataArr.drop dIdx) with
          | some vs => .ok (some ((full.take (keyPtr + 1), vs), (rest, nextIdx, keyPtr + 1)))
          | none => .error "deserialization failed"
      else psNextAux baseArr checkArr dataArr full rest nextIdx (keyPtr + 1) b2
    else .ok none

/-- `PrefixSearchIter::next`: re-reads `base_arr[arr_ptr]` on entry, then
walks the remaining key. -/
def psNext (baseArr checkArr dataArr full : List Nat) (st : List Nat × Nat × Nat) :
    Except String (Option ((List Nat × List Nat) × (List Nat × Nat × Nat))) := do
  let b ← readArr baseArr st.2.1
  psNextAux baseArr checkArr dataArr full st.1 st.2.1 st.2.2 b

def psCollectAux (baseArr checkArr dataArr full : List Nat) :
    Nat → (List Nat × Nat × Nat) → Except String (List (List Nat × List Nat))
  | 0, _ => .error "iterator fuel exhausted"
  | fuel + 1, st => do
    match ← psNext baseArr checkArr dataArr full st with
    | none => .ok []
    | some pr => do
      let rest ← psCollectAux baseArr checkArr dataArr full fuel pr.2
      .ok (pr.1 :: rest)

/-- `prefix_search_iter(key).collect::<Vec<_>>()`: pull `next` until `None`.
The fuel `key.length + 1` always suffices because every `Some` strictly
shortens the remaining key. -/
def DoubleArray.pfxIterCollect (da : DoubleArray) (key : List Nat) :
    Except String (List (List Nat × List Nat)) := do
  let arrs ← da.getArrays
  psCollectAux arrs.1 arrs.2.1 arrs.2.2 key (key.length + 1) (key, 1, 0)

/-- `do`-bind of a known `.ok` reduces. -/
theorem okBind {α β : Type} (x : α) (f : α → Except String β) :
    (Except.ok x : Except String α) >>= f = f x := rfl

theorem errBind {α β : Type} (e : String) (f : α → Except String β) :
    (Except.error e : Except String α) >>= f = Except.error e := rfl

/-! ### Value-size side conditions

The `T = u32` instantiation bounds each stored value by `2^32`; `bincode`'s
length prefix is a `u64`.  `ValsLt` states the former for every node of a
trie, `valsTotal` counts all insertions (so every per-node value list is
shorter than the total). -/

inductive ValsLt : Node → Prop where
  | mk (n : Node) (hv : ∀ v ∈ n.values, v < 2 ^ 32) (hch : ∀ c ∈ n.nexts, ValsLt c) : ValsLt n

theorem ValsLt.vals {n : Node} (h : ValsLt n) : ∀ v ∈ n.values, v < 2 ^ 32 := by
  cases h; assumption

theorem ValsLt.sub {n : Node} (h : ValsLt n) : ∀ c ∈ n.nexts, ValsLt c := by
  cases h; assumption

mutual

def valsTotal : Node → Nat
  | ⟨_, values, nexts⟩ => values.length + valsTotalL nexts

def valsTotalL : List Node → Nat
  | [] => 0
  | c :: cs => valsTotal c + valsTotalL cs

end

theorem valsTotal_eq (n : Node) : valsTotal n = n.values.length + valsTotalL n.nexts := by
  cases n; rfl

theorem valsTotalL_mem {cs : List Node} {c : Node} (h : c ∈ cs) : valsTotal c ≤ valsTotalL cs := by
  induction cs with
  | nil => simp at h
  | cons c0 t ih =>
    rcases List.mem_cons.mp h with h' | h'
    · subst h'; simp [valsTotalL]
    · have := ih h'
      simp only [valsTotalL]
      omega

mutual

theorem valsTotal_setK : ∀ (ks : List Nat) (n : Node) (v : Nat),
    valsTotal (Node.setK n ks v) = valsTotal n + 1
  | [], n, v => by
    simp only [Node.setK, valsTotal_eq, List.length_append, List.length_singleton]
    omega
  | k :: ks, n, v => by
    simp only [Node.setK, valsTotal_eq]
    rw [valsTotalL_insertChild ks k v n.nexts]
    omega
termination_by ks => (ks.length, 0)

theorem valsTotalL_insertChild : ∀ (ks : List Nat) (k v : Nat) (cs : List Node),
    valsTotalL (insertChild cs k ks v) = valsTotalL cs + 1
  | ks, k, v, [] => by
    simp only [insertChild, valsTotalL]
    rw [valsTotal_setK ks ⟨k, [], []⟩ v]
    simp only [valsTotal_eq, List.length_nil, valsTotalL]
  | ks, k, v, c :: cs => by
    simp only [insertChild]
    split
    · simp only [valsTotalL]
      rw [valsTotal_setK ks c v]
      omega
    · split
      · simp only [valsTotalL]
        rw [valsTotal_setK ks ⟨k, [], []⟩ v]
        simp only [valsTotal_eq, List.length_nil, valsTotalL]
        omega
      · simp only [valsTotalL]
        rw [valsTotalL_insertChild ks k v cs]
        omega
termination_by ks _ _ cs => (ks.length, 1 + cs.length)

end

theorem valsLt_fresh (k : Nat) : ValsLt ⟨k, [], []⟩ := ValsLt.mk _ (by simp) (by simp)

theorem valsLt_setK : ∀ (ks : List Nat) (n : Node) (v : Nat), ValsLt n → v < 2 ^ 32 →
    ValsLt (Node.setK n ks v)
  | [], n, v, hl, hv => by
    refine ValsLt.mk _ ?_ ?_
    · intro x hx
      simp only [Node.setK, List.mem_append, List.mem_singleton] at hx
      rcases hx with h | h
      · exact hl.vals x h
      · subst h; exact hv
    · intro c hc
      exact hl.sub c (by simpa [Node.setK] using hc)
  | k :: ks, n, v, hl, hv => by
    refine ValsLt.mk _ ?_ ?_
    · intro x hx
      exact hl.vals x (by simpa [Node.setK] using hx)
    · intro c hc
      simp only [Node.setK] at hc
      rcases insertChild_mem _ k ks v c hc with h | ⟨c1, hc1, he⟩
      · exact hl.sub c h
      · subst he
        rcases hc1 with ⟨hm, _⟩ | hf
        · exact valsLt_setK ks c1 v (hl.sub c1 hm) hv
        · subst hf; exact valsLt_setK ks _ v (valsLt_fresh k) hv
termination_by ks => ks.length

theorem valsLt_trieOf (L : List (List Nat × Nat)) (hv : ∀ kv ∈ L, kv.2 < 2 ^ 32) :
    ValsLt (trieOf L).root := by
  suffices hgen : ∀ (M : List (List Nat × Nat)) (t : Trie), ValsLt t.root →
      (∀ kv ∈ M, kv.2 < 2 ^ 32) →
      ValsLt ((M.foldl (fun t kv => t.set kv.1 kv.2) t).root) by
    exact hgen L Trie.new (valsLt_fresh 0) hv
  intro M
  induction M with
  | nil => intro t h _; exact h
  | cons kv M' ih =>
    intro t h hv'
    exact ih (t.set kv.1 kv.2) (valsLt_setK kv.1 t.root kv.2 h (hv' kv (by simp)))
      (fun kv' h' => hv' kv' (by simp [h']))

theorem valsTotal_trieOf (L : List (List Nat × Nat)) :
    valsTotal (trieOf L).root = L.length := by
  suffices hgen : ∀ (M : List (List Nat × Nat)) (t : Trie),
      valsTotal ((M.foldl (fun t kv => t.set kv.1 kv.2) t).root) = valsTotal t.root + M.length by
    have := hgen L Trie.new
    rw [trieOf, this]
    simp [Trie.new, valsTotal_eq, valsTotalL]
  intro M
  induction M with
  | nil => intro t; simp
  | cons kv M' ih =>
    intro t
    simp only [List.foldl_cons, ih]
    rw [show (t.set kv.1 kv.2).root = Node.setK t.root kv.1 kv.2 from rfl,
      valsTotal_setK kv.1 t.root kv.2]
    simp only [List.length_cons]
    omega

/-! ### The embedding relation

`Emb B C D i nd` states that the trie node `nd` is correctly compiled at
index `i` of the (final) BASE/CHECK arrays: every child sits at
`BASE[i] + key` with the proper CHECK back-pointer, a nonempty value list is
reachable through the `0xFF` sentinel slot and decodes from DATA, and no
other index claims `i` as its parent (so lookups cannot follow spurious
edges). -/

inductive Emb (B C D : List Nat) : Nat → Node → Prop where
  | intro (i : Nat) (nd : Node)
      (hi : 1 ≤ i)
      (hbound : B.getD i 0 + 255 < C.length)
      (hchildC : ∀ c ∈ nd.nexts, C.getD (B.getD i 0 + c.key) 0 = i)
      (hchildE : ∀ c ∈ nd.nexts, Emb B C D (B.getD i 0 + c.key) c)
      (hval : nd.values ≠ [] →
        C.getD (B.getD i 0 + 255) 0 = i ∧
        B.getD (B.getD i 0 + 255) 0 ≤ D.length ∧
        decodeVals (D.drop (B.getD (B.getD i 0 + 255) 0)) = some nd.values)
      (hcomp : ∀ byte ≤ 255, C.getD (B.getD i 0 + byte) 0 = i →
        (byte = 255 ∧ nd.values ≠ []) ∨ ∃ c ∈ nd.nexts, c.key = byte) :
      Emb B C D i nd

theorem findChild_isSome_of_mem {l : List Node} {c : Node} {k : Nat}
    (hc : c ∈ l) (hk : c.key = k) : ∃ c2, findChild l k = some c2 ∧ c2 ∈ l ∧ c2.key = k := by
  induction l with
  | nil => simp at hc
  | cons c0 cs ih =>
    by_cases h : c0.key = k
    · exact ⟨c0, by simp [findChild, h], by simp, h⟩
    · rcases List.mem_cons.mp hc with h' | h'
      · subst h'; exact absurd hk h
      · rcases ih h' with ⟨c2, he, hm, hk2⟩
        exact ⟨c2, by simp [findChild, h, he], by simp [hm], hk2⟩

theorem findChild_key {l : List Node} {k : Nat} {c : Node} (h : findChild l k = some c) :
    c.key = k := by
  induction l with
  | nil => simp [findChild] at h
  | cons c0 cs ih =>
    simp only [findChild] at h
    split at h
    · simp only [Option.some.injEq] at h
      subst h; assumption
    · exact ih h

/-- Walk correctness: starting from an embedded node, `get`'s inner loop
returns exactly the trie lookup result and never panics. -/
theorem getAux_emb {B C D : List Nat} (hlen : B.length = C.length) :
    ∀ (key : List Nat) (i : Nat) (nd : Node), Emb B C D i nd → Node.Good nd →
      (∀ bb ∈ key, bb < 255) →
      getAux B C D key i (B.getD i 0) =
        .ok (match nd.getNode key with
          | some m => if m.values = [] then none else some m.values
          | none => none) := by
  intro key
  induction key with
  | nil =>
    intro i nd hemb hg _
    rcases hemb with ⟨_, _, hi, hbound, hchildC, hchildE, hval, hcomp⟩
    simp only [getAux, Node.getNode]
    rw [show readArr C (B.getD i 0 + 255) = .ok (C.getD (B.getD i 0 + 255) 0) from
      if_pos (by omega)]
    by_cases hv : nd.values = []
    · have hne : C.getD (B.getD i 0 + 255) 0 ≠ i := by
        intro hc
        rcases hcomp 255 (le_refl 255) hc with ⟨_, hvne⟩ | ⟨c, hcm, hck⟩
        · exact hvne hv
        · have := hg.keys c hcm; omega
      simp only [okBind]
      rw [if_neg hne, if_pos hv]
    · rcases hval hv with ⟨hcv, hdle, hdec⟩
      simp only [okBind]
      rw [if_pos hcv]
      rw [show readArr B (B.getD i 0 + 255) = .ok (B.getD (B.getD i 0 + 255) 0) from
        if_pos (by omega)]
      simp only [okBind]
      rw [if_neg (by omega), hdec, if_neg hv]
  | cons byte rest ih =>
    intro i nd hemb hg hkey
    have hb : byte < 255 := hkey byte (by simp)
    have hrest : ∀ bb ∈ rest, bb < 255 := fun bb h => hkey bb (by simp [h])
    rcases hemb with ⟨_, _, hi, hbound, hchildC, hchildE, hval, hcomp⟩
    simp only [getAux, Node.getNode]
    rw [show readArr C (B.getD i 0 + byte) = .ok (C.getD (B.getD i 0 + byte) 0) from
      if_pos (by omega)]
    simp only [okBind]
    cases hf : findChild nd.nexts byte with
    | some c =>
      have hcm : c ∈ nd.nexts := findChild_mem hf
      have hck : c.key = byte := findChild_key hf
      have hcv : C.getD (B.getD i 0 + byte) 0 = i := by
        have := hchildC c hcm
        rw [hck] at this
        exact this
      rw [if_pos hcv]
      rw [show readArr B (B.getD i 0 + byte) = .ok (B.getD (B.getD i 0 + byte) 0) from
        if_pos (by omega)]
      simp only [okBind]
      have hembc : Emb B C D (B.getD i 0 + byte) c := by
        have := hchildE c hcm
        rw [hck] at this
        exact this
      have hic : 1 ≤ B.getD i 0 + byte := by
        rcases hembc with ⟨_, _, h1, _, _, _, _, _⟩
        exact h1
      exact ih (B.getD i 0 + byte) c hembc (hg.ch c hcm) hrest
    | none =>
      have hne : C.getD (B.getD i 0 + byte) 0 ≠ i := by
        intro hc
        rcases hcomp byte (by omega) hc with ⟨h255, _⟩ | ⟨c, hcm, hck⟩
        · omega
        · rcases findChild_isSome_of_mem hcm hck with ⟨c2, he, _, _⟩
          rw [he] at hf
          exact Option.noConfusion hf
      rw [if_neg hne]

/-! ### Prefix-search walk correctness -/

/-- Trie-side description of what `prefix_search(full)` returns when the walk
starts at node `nd` with `key` left to consume (`pos` bytes consumed so
far): one pair per transition that lands on a node with values. -/
def pfxSpec (full : List Nat) : Node → List Nat → Nat → List (List Nat × List Nat)
  | _, [], _ => []
  | nd, byte :: rest, pos =>
    match findChild nd.nexts byte with
    | none => []
    | some c =>
      (if c.values = [] then [] else [(full.take (pos + 1), c.values)]) ++
        pfxSpec full c rest (pos + 1)

theorem pfxAux_emb {B C D : List Nat} (hlen : B.length = C.length) (full : List Nat) :
    ∀ (key : List Nat) (i : Nat) (nd : Node) (pos : Nat) (acc : List (List Nat × List Nat)),
      Emb B C D i nd → Node.Good nd → (∀ bb ∈ key, bb < 255) →
      pfxAux B C D full key i (B.getD i 0) pos acc = .ok (acc ++ pfxSpec full nd key pos) := by
  intro key
  induction key with
  | nil =>
    intro i nd pos acc _ _ _
    simp [pfxAux, pfxSpec]
  | cons byte rest ih =>
    intro i nd pos acc hemb hg hkey
    have hb : byte < 255 := hkey byte (by simp)
    have hrest : ∀ bb ∈ rest, bb < 255 := fun bb h => hkey bb (by simp [h])
    rcases hemb with ⟨_, _, hi, hbound, hchildC, hchildE, hval, hcomp⟩
    simp only [pfxAux, pfxSpec]
    rw [show readArr C (B.getD i 0 + byte) = .ok (C.getD (B.getD i 0 + byte) 0) from
      if_pos (by omega)]
    simp only [okBind]
    cases hf : findChild nd.nexts byte with
    | none =>
      have hne : C.getD (B.getD i 0 + byte) 0 ≠ i := by
        intro hc
        rcases hcomp byte (by omega) hc with ⟨h255, _⟩ | ⟨c, hcm, hck⟩
        · omega
        · rcases findChild_isSome_of_mem hcm hck with ⟨c2, he, _, _⟩
          rw [he] at hf
          exact Option.noConfusion hf
      rw [if_neg hne]
      simp
    | some c =>
      have hcm : c ∈ nd.nexts := findChild_mem hf
      have hck : c.key = byte := findChild_key hf
      have hcv : C.getD (B.getD i 0 + byte) 0 = i := by
        have := hchildC c hcm
        rw [hck] at this
        exact this
      rw [if_pos hcv]
      rw [show readArr B (B.getD i 0 + byte) = .ok (B.getD (B.getD i 0 + byte) 0) from
        if_pos (by omega)]
      simp only [okBind]
      have hembc : Emb B C D (B.getD i 0 + byte) c := by
        have := hchildE c hcm
        rw [hck] at this
        exact this
      have hgc : Node.Good c := hg.ch c hcm
      rcases hembc with ⟨_, _, hic, hboundc, hchildCc, hchildEc, hvalc, hcompc⟩
      rw [show readArr C (B.getD (B.getD i 0 + byte) 0 + 255) =
        .ok (C.getD (B.getD (B.getD i 0 + byte) 0 + 255) 0) from if_pos (by omega)]
      simp only [okBind]
      by_cases hcval : c.values = []
      · have hne : C.getD (B.getD (B.getD i 0 + byte) 0 + 255) 0 ≠ B.getD i 0 + byte := by
          intro hc
          rcases hcompc 255 (le_refl 255) hc with ⟨_, hvne⟩ | ⟨gc, hgcm, hgck⟩
          · exact hvne hcval
          · have := hgc.keys gc hgcm; omega
        rw [if_neg hne]
        have := ih (B.getD i 0 + byte) c (pos + 1) acc
          (Emb.intro _ _ hic hboundc hchildCc hchildEc hvalc hcompc) hgc hrest
        rw [this, hcval]
        simp
      · rcases hvalc hcval with ⟨hcv2, hdle, hdec⟩
        rw [if_pos hcv2]
        rw [show readArr B (B.getD (B.getD i 0 + byte) 0 + 255) =
          .ok (B.getD (B.getD (B.getD i 0 + byte) 0 + 255) 0) from if_pos (by omega)]
        simp only [okBind]
        rw [if_neg (by omega), hdec]
        dsimp only
        have := ih (B.getD i 0 + byte) c (pos + 1) (acc ++ [(full.take (pos + 1), c.values)])
          (Emb.intro _ _ hic hboundc hchildCc hchildEc hvalc hcompc) hgc hrest
        rw [this]
        rw [if_neg hcval]
        simp

theorem pfxSpec_mem (full : List Nat) :
    ∀ (K : List Nat) (rest : List Nat) (nd : Node) (pos : Nat) (m : Node),
      nd.getNode K = some m → m.values ≠ [] → K ≠ [] →
      (full.take (pos + K.length), m.values) ∈ pfxSpec full nd (K ++ rest) pos := by
  intro K
  induction K with
  | nil => intro rest nd pos m _ _ hne; exact absurd rfl hne
  | cons byte K' ih =>
    intro rest nd pos m hget hvals _
    simp only [Node.getNode] at hget
    cases hf : findChild nd.nexts byte with
    | none => rw [hf] at hget; exact Option.noConfusion hget
    | some c =>
      rw [hf] at hget
      dsimp only at hget
      simp only [List.cons_append, pfxSpec, hf]
      cases hK' : K' with
      | nil =>
        subst hK'
        simp only [Node.getNode, Option.some.injEq] at hget
        subst hget
        rw [if_neg hvals]
        simp only [List.length_cons, List.length_nil]
        simp
      | cons b2 K'' =>
        have hmem := ih rest c (pos + 1) m hget hvals (by simp [hK'])
        simp only [List.mem_append]
        right
        rw [← hK']
        have harith : pos + (byte :: K').length = pos + 1 + K'.length := by
          simp only [List.length_cons]
          omega
        rw [harith]
        exact hmem

theorem pfxSpec_len_bound (full : List Nat) :
    ∀ (key : List Nat) (nd : Node) (pos : Nat),
      pos + key.length ≤ full.length →
      ∀ pr ∈ pfxSpec full nd key pos, pos < pr.1.length ∧ pr.1.length ≤ pos + key.length := by
  intro key
  induction key with
  | nil => intro nd pos _ pr hpr; simp [pfxSpec] at hpr
  | cons byte rest ih =>
    intro nd pos hpos pr hpr
    simp only [pfxSpec] at hpr
    cases hf : findChild nd.nexts byte with
    | none => rw [hf] at hpr; simp at hpr
    | some c =>
      rw [hf] at hpr
      simp only [List.mem_append] at hpr
      rcases hpr with h | h
      · split at h
        · simp at h
        · simp only [List.mem_singleton] at h
          subst h
          have hlen : (full.take (pos + 1)).length = pos + 1 := by
            rw [List.length_take]
            simp only [List.length_cons] at hpos
            omega
          simp only [hlen, List.length_cons]
          omega
      · have := ih c (pos + 1) (by simp only [List.length_cons] at hpos; omega) pr h
        simp only [List.length_cons]
        omega

theorem pfxSpec_pairwise (full : List Nat) :
    ∀ (key : List Nat) (nd : Node) (pos : Nat),
      pos + key.length ≤ full.length →
      (pfxSpec full nd key pos).Pairwise (fun a b => a.1.length < b.1.length) := by
  intro key
  induction key with
  | nil => intro nd pos _; simp [pfxSpec]
  | cons byte rest ih =>
    intro nd pos hpos
    simp only [pfxSpec]
    cases hf : findChild nd.nexts byte with
    | none => simp
    | some c =>
      have hpos' : pos + 1 + rest.length ≤ full.length := by
        simp only [List.length_cons] at hpos; omega
      have htail := ih c (pos + 1) hpos'
      dsimp only
      split
      · simpa using htail
      · simp only [List.singleton_append]
        refine List.pairwise_cons.mpr ⟨?_, htail⟩
        intro pr hpr
        have hb := (pfxSpec_len_bound full rest c (pos + 1) hpos' pr hpr).1
        have hlen : (full.take (pos + 1)).length = pos + 1 := by
          rw [List.length_take]
          simp only [List.length_cons] at hpos
          omega
        simp only []
        rw [hlen]
        omega

/-! ### Iterator / prefix-search equivalence

These lemmas relate `PrefixSearchIter::next` pulled to exhaustion with
`prefix_search`, over arbitrary BASE/CHECK/DATA arrays and keys — including
all panic (error) cases, which the two sides hit identically. -/

theorem psNextAux_cases (B C D full : List Nat) :
    ∀ (key : List Nat) (i pos b : Nat) (acc : List (List Nat × List Nat)),
      (∀ e, psNextAux B C D full key i pos b = .error e →
        pfxAux B C D full key i b pos acc = .error e) ∧
      (psNextAux B C D full key i pos b = .ok none →
        pfxAux B C D full key i b pos acc = .ok acc) ∧
      (∀ pr rest2 i2 pos2,
        psNextAux B C D full key i pos b = .ok (some (pr, (rest2, i2, pos2))) →
        rest2.length < key.length ∧ ∃ b2, readArr B i2 = .ok b2 ∧
          pfxAux B C D full key i b pos acc =
            pfxAux B C D full rest2 i2 b2 pos2 (acc ++ [pr])) := by
  intro key
  induction key with
  | nil =>
    intro i pos b acc
    refine ⟨?_, ?_, ?_⟩
    · intro e he
      simp [psNextAux] at he
    · intro _
      simp [pfxAux]
    · intro pr rest2 i2 pos2 h
      simp [psNextAux] at h
  | cons byte rest ih =>
    intro i pos b acc
    cases hcv : readArr C (b + byte) with
    | error e0 =>
      refine ⟨?_, ?_, ?_⟩
      · intro e he
        simp only [psNextAux, hcv, errBind, Except.error.injEq] at he
        subst he
        simp only [pfxAux, hcv, errBind]
      · intro h
        simp [psNextAux, hcv, errBind] at h
      · intro pr rest2 i2 pos2 h
        simp [psNextAux, hcv, errBind] at h
    | ok cv =>
      by_cases heq : cv = i
      · subst heq
        cases hb2 : readArr B (b + byte) with
        | error e0 =>
          refine ⟨?_, ?_, ?_⟩
          · intro e he
            simp only [psNextAux, hcv, okBind, eq_self_iff_true, ite_true, if_pos rfl, hb2, errBind,
              Except.error.injEq] at he
            subst he
            simp only [pfxAux, hcv, okBind, eq_self_iff_true, ite_true, if_pos rfl, hb2, errBind]
          · intro h
            simp [psNextAux, hcv, okBind, eq_self_iff_true, ite_true, hb2, errBind] at h
          · intro pr rest2 i2 pos2 h
            simp [psNextAux, hcv, okBind, eq_self_iff_true, ite_true, hb2, errBind] at h
        | ok b2 =>
          cases hcv2 : readArr C (b2 + 255) with
          | error e0 =>
            refine ⟨?_, ?_, ?_⟩
            · intro e he
              simp only [psNextAux, hcv, okBind, eq_self_iff_true, ite_true, if_pos rfl, hb2, hcv2, errBind,
                Except.error.injEq] at he
              subst he
              simp only [pfxAux, hcv, okBind, eq_self_iff_true, ite_true, if_pos rfl, hb2, hcv2, errBind]
            · intro h
              simp [psNextAux, hcv, okBind, eq_self_iff_true, ite_true, hb2, hcv2, errBind] at h
            · intro pr rest2 i2 pos2 h
              simp [psNextAux, hcv, okBind, eq_self_iff_true, ite_true, hb2, hcv2, errBind] at h
          | ok cv2 =>
            by_cases heq2 : cv2 = b + byte
            · subst heq2
              cases hd : readArr B (b2 + 255) with
              | error e0 =>
                refine ⟨?_, ?_, ?_⟩
                · intro e he
                  simp only [psNextAux, hcv, okBind, eq_self_iff_true, ite_true, if_pos rfl, hb2, hcv2, hd, errBind,
                    Except.error.injEq] at he
                  subst he
                  simp only [pfxAux, hcv, okBind, eq_self_iff_true, ite_true, if_pos rfl, hb2, hcv2, hd, errBind]
                · intro h
                  simp [psNextAux, hcv, okBind, eq_self_iff_true, ite_true, hb2, hcv2, hd, errBind] at h
                · intro pr rest2 i2 pos2 h
                  simp [psNextAux, hcv, okBind, eq_self_iff_true, ite_true, hb2, hcv2, hd, errBind] at h
              | ok dIdx =>
                by_cases hdl : D.length < dIdx
                · refine ⟨?_, ?_, ?_⟩
                  · intro e he
                    simp only [psNextAux, hcv, okBind, eq_self_iff_true, ite_true, if_pos rfl, hb2, hcv2, hd,
                      if_pos hdl, Except.error.injEq] at he
                    subst he
                    simp only [pfxAux, hcv, okBind, eq_self_iff_true, ite_true, if_pos rfl, hb2, hcv2, hd, if_pos hdl]
                  · intro h
                    simp [psNextAux, hcv, okBind, eq_self_iff_true, ite_true, hb2, hcv2, hd, if_pos hdl] at h
                  · intro pr rest2 i2 pos2 h
                    simp [psNextAux, hcv, okBind, eq_self_iff_true, ite_true, hb2, hcv2, hd, if_pos hdl] at h
                · cases hdec : decodeVals (D.drop dIdx) with
                  | none =>
                    refine ⟨?_, ?_, ?_⟩
                    · intro e he
                      simp only [psNextAux, hcv, okBind, eq_self_iff_true, ite_true, if_pos rfl, hb2, hcv2, hd,
                        if_neg hdl, hdec, Except.error.injEq] at he
                      subst he
                      simp only [pfxAux, hcv, okBind, eq_self_iff_true, ite_true, if_pos rfl, hb2, hcv2, hd,
                        if_neg hdl, hdec]
                    · intro h
                      simp [psNextAux, hcv, okBind, eq_self_iff_true, ite_true, hb2, hcv2, hd, if_neg hdl, hdec] at h
                    · intro pr rest2 i2 pos2 h
                      simp [psNextAux, hcv, okBind, eq_self_iff_true, ite_true, hb2, hcv2, hd, if_neg hdl, hdec] at h
                  | some vs =>
                    refine ⟨?_, ?_, ?_⟩
                    · intro e he
                      simp [psNextAux, hcv, okBind, eq_self_iff_true, ite_true, hb2, hcv2, hd, if_neg hdl, hdec] at he
                    · intro h
                      simp [psNextAux, hcv, okBind, eq_self_iff_true, ite_true, hb2, hcv2, hd, if_neg hdl, hdec] at h
                    · intro pr rest2 i2 pos2 h
                      simp only [psNextAux, hcv, okBind, eq_self_iff_true, ite_true, if_pos rfl, hb2, hcv2, hd,
                        if_neg hdl, hdec, Except.ok.injEq, Option.some.injEq,
                        Prod.mk.injEq] at h
                      obtain ⟨hpr, hrest, hi2, hpos2⟩ := h
                      refine ⟨by rw [← hrest]; simp, b2, by rw [← hi2]; exact hb2, ?_⟩
                      simp only [pfxAux, hcv, okBind, eq_self_iff_true, ite_true, if_pos rfl, hb2, hcv2, hd,
                        if_neg hdl, hdec]
                      rw [← hrest, ← hi2, ← hpos2, ← hpr]
            · refine ⟨?_, ?_, ?_⟩
              · intro e he
                simp only [psNextAux, hcv, okBind, eq_self_iff_true, ite_true, if_pos rfl, hb2, hcv2,
                  if_neg heq2] at he
                have := (ih (b + byte) (pos + 1) b2 acc).1 e he
                simp only [pfxAux, hcv, okBind, eq_self_iff_true, ite_true, if_pos rfl, hb2, hcv2, if_neg heq2]
                exact this
              · intro h
                simp only [psNextAux, hcv, okBind, eq_self_iff_true, ite_true, if_pos rfl, hb2, hcv2,
                  if_neg heq2] at h
                have := (ih (b + byte) (pos + 1) b2 acc).2.1 h
                simp only [pfxAux, hcv, okBind, eq_self_iff_true, ite_true, if_pos rfl, hb2, hcv2, if_neg heq2]
                exact this
              · intro pr rest2 i2 pos2 h
                simp only [psNextAux, hcv, okBind, eq_self_iff_true, ite_true, if_pos rfl, hb2, hcv2,
                  if_neg heq2] at h
                rcases (ih (b + byte) (pos + 1) b2 acc).2.2 pr rest2 i2 pos2 h with
                  ⟨hlt, b3, hb3, heq3⟩
                refine ⟨by simp; omega, b3, hb3, ?_⟩
                simp only [pfxAux, hcv, okBind, eq_self_iff_true, ite_true, if_pos rfl, hb2, hcv2, if_neg heq2]
                exact heq3
      · refine ⟨?_, ?_, ?_⟩
        · intro e he
          simp [psNextAux, hcv, okBind, eq_self_iff_true, ite_true, if_neg heq] at he
        · intro _
          simp only [pfxAux, hcv, okBind, eq_self_iff_true, ite_true, if_neg heq]
        · intro pr rest2 i2 pos2 h
          simp [psNextAux, hcv, okBind, eq_self_iff_true, ite_true, if_neg heq] at h

theorem psCollectAux_eq (B C D full : List Nat) :
    ∀ (fuel : Nat) (key : List Nat) (i pos b : Nat) (acc : List (List Nat × List Nat)),
      key.length < fuel → readArr B i = .ok b →
      (psCollectAux B C D full fuel (key, i, pos)).map (fun l => acc ++ l) =
        pfxAux B C D full key i b pos acc := by
  intro fuel
  induction fuel with
  | zero => intro key i pos b acc h _; omega
  | succ f ih =>
    intro key i pos b acc hlen hread
    have hnext : psNext B C D full (key, i, pos) = psNextAux B C D full key i pos b := by
      simp only [psNext, hread, okBind, eq_self_iff_true, ite_true]
    cases hres : psNextAux B C D full key i pos b with
    | error e =>
      have := (psNextAux_cases B C D full key i pos b acc).1 e hres
      rw [this]
      simp only [psCollectAux, hnext, hres, errBind]
      rfl
    | ok o =>
      cases o with
      | none =>
        have := (psNextAux_cases B C D full key i pos b acc).2.1 hres
        rw [this]
        simp only [psCollectAux, hnext, hres, okBind, eq_self_iff_true, ite_true]
        simp [Except.map]
      | some pr =>
        rcases pr with ⟨pair, rest2, i2, pos2⟩
        rcases (psNextAux_cases B C D full key i pos b acc).2.2 pair rest2 i2 pos2 hres with
          ⟨hlt, b2, hb2, heq⟩
        rw [heq]
        rw [← ih rest2 i2 pos2 b2 (acc ++ [pair]) (by omega) hb2]
        simp only [psCollectAux, hnext, hres, okBind, eq_self_iff_true, ite_true]
        cases hc : psCollectAux B C D full f (rest2, i2, pos2) with
        | error e => simp [hc, Except.map, errBind]
        | ok l => simp [hc, Except.map, okBind]

theorem pfxIter_eq (da : DoubleArray) (key : List Nat) :
    da.pfxIterCollect key = da.pfxSearch key := by
  unfold DoubleArray.pfxIterCollect DoubleArray.pfxSearch
  cases harr : da.getArrays with
  | error e => simp only [errBind]
  | ok arrs =>
    simp only [okBind]
    cases hread : readArr arrs.1 1 with
    | error e =>
      rw [show key.length + 1 = key.length + 1 from rfl]
      simp only [errBind]
      simp only [psCollectAux, psNext, hread, errBind]
    | ok b =>
      simp only [okBind]
      have := psCollectAux_eq arrs.1 arrs.2.1 arrs.2.2 key (key.length + 1) key 1 0 b []
        (by omega) hread
      rw [← this]
      cases psCollectAux arrs.1 arrs.2.1 arrs.2.2 key (key.length + 1) (key, 1, 0) with
      | error e => rfl
      | ok l => simp [Except.map]

/-! ### The construction loop: invariant and postcondition -/

theorem stackSize_append (l1 l2 : List (Nat × Node)) :
    stackSize (l1 ++ l2) = stackSize l1 + stackSize l2 := by
  induction l1 with
  | nil => simp [stackSize]
  | cons p t ih =>
    obtain ⟨i, n⟩ := p
    rw [List.cons_append,
      show stackSize ((i, n) :: (t ++ l2)) = nodeSize n + stackSize (t ++ l2) from rfl,
      show stackSize ((i, n) :: t) = nodeSize n + stackSize t from rfl, ih]
    omega

theorem stackSize_map (f : Node → Nat) (l : List Node) :
    stackSize (l.map (fun c => (f c, c))) = nodesSize l := by
  induction l with
  | nil => rfl
  | cons c t ih => simp only [List.map_cons, stackSize, nodesSize, ih]

theorem nodesSize_append (l1 l2 : List Node) :
    nodesSize (l1 ++ l2) = nodesSize l1 + nodesSize l2 := by
  induction l1 with
  | nil => simp [nodesSize]
  | cons c t ih =>
    rw [List.cons_append,
      show nodesSize (c :: (t ++ l2)) = nodeSize c + nodesSize (t ++ l2) from rfl,
      show nodesSize (c :: t) = nodeSize c + nodesSize t from rfl, ih]
    omega

theorem nodesSize_reverse (l : List Node) : nodesSize l.reverse = nodesSize l := by
  induction l with
  | nil => rfl
  | cons c t ih =>
    simp only [List.reverse_cons, nodesSize, nodesSize_append, ih]
    simp [nodesSize]
    omega

theorem nodeSize_pos (n : Node) : 1 ≤ nodeSize n := by
  cases n; simp [nodeSize]

theorem nodeSize_eq (n : Node) : nodeSize n = 1 + nodesSize n.nexts := by
  cases n; rfl

/-- Postcondition of the child-placement loop. -/
structure PlacePost (curr : Nat) (values : List Nat) (b : Nat) (cs : List Node)
    (st : BuildState) (stack : List (Nat × Node))
    (out : BuildState × List (Nat × Node)) : Prop where
  len_eq : out.1.len = st.len
  base_len : out.1.base.length = st.base.length
  check_len : out.1.check.length = st.check.length
  cursor_eq : out.1.bc.cursor = st.bc.cursor
  bits_iff : ∀ x, x ∈ out.1.bc.bits ↔ x ∈ st.bc.bits ∨ ∃ c ∈ cs, x = b + c.key
  check_old : ∀ x, (∀ c ∈ cs, x ≠ b + c.key) → out.1.check.getD x 0 = st.check.getD x 0
  check_new : ∀ c ∈ cs, out.1.check.getD (b + c.key) 0 = curr
  base_old : ∀ x, (∀ c ∈ cs, c.key = 255 → x ≠ b + c.key) →
    out.1.base.getD x 0 = st.base.getD x 0
  data_val : (∃ c ∈ cs, c.key = 255) →
    out.1.data = st.data ++ encodeVals values ∧
      ∀ c ∈ cs, c.key = 255 → out.1.base.getD (b + c.key) 0 = st.data.length
  data_nov : (∀ c ∈ cs, c.key ≠ 255) → out.1.data = st.data
  stack_eq : out.2 =
    ((cs.filter (fun c => c.key ≠ 255)).reverse.map (fun c => (b + c.key, c))) ++ stack

theorem placeChildren_post (curr : Nat) (values : List Nat) (b : Nat) :
    ∀ (cs : List Node) (st : BuildState) (stack : List (Nat × Node)),
      (cs.map Node.key).Nodup →
      (∀ c ∈ cs, b + c.key < st.check.length ∧ b + c.key < st.base.length) →
      PlacePost curr values b cs st stack (placeChildren curr values b cs st stack) := by
  intro cs
  induction cs with
  | nil =>
    intro st stack _ _
    refine ⟨rfl, rfl, rfl, rfl, ?_, ?_, ?_, ?_, ?_, ?_, ?_⟩
    · intro x; simp [placeChildren]
    · intro x _; rfl
    · intro c hc; simp at hc
    · intro x _; rfl
    · intro h; simp at h
    · intro _; rfl
    · simp [placeChildren]
  | cons c cs' ih =>
    intro st stack hnodup hrange
    have hnodup' : (cs'.map Node.key).Nodup := (List.nodup_cons.mp hnodup).2
    have hknotin : c.key ∉ cs'.map Node.key := (List.nodup_cons.mp hnodup).1
    have hrc := hrange c (by simp)
    by_cases hk : c.key = 255
    · -- sentinel child: write data pointer and extend DATA
      have hstep : placeChildren curr values b (c :: cs') st stack =
          placeChildren curr values b cs'
            ⟨st.len, st.base.set (b + c.key) st.data.length, st.check.set (b + c.key) curr,
              st.data ++ encodeVals values, st.bc.set (b + c.key)⟩ stack := by
        simp only [placeChildren, if_pos hk]
      rw [hstep]
      set st1 : BuildState :=
        ⟨st.len, st.base.set (b + c.key) st.data.length, st.check.set (b + c.key) curr,
          st.data ++ encodeVals values, st.bc.set (b + c.key)⟩ with hst1
      have hrange' : ∀ c' ∈ cs', b + c'.key < st1.check.length ∧ b + c'.key < st1.base.length := by
        intro c' hc'
        have := hrange c' (by simp [hc'])
        simpa [hst1] using this
      have hpost := ih st1 stack hnodup' hrange'
      have hno255 : ∀ c' ∈ cs', c'.key ≠ 255 := by
        intro c' hc' hc255
        exact hknotin (by rw [hk, ← hc255]; exact List.mem_map_of_mem Node.key hc')
      have hslotne : ∀ c' ∈ cs', b + c.key ≠ b + c'.key := by
        intro c' hc' he
        have : c.key = c'.key := by omega
        exact hknotin (by rw [this]; exact List.mem_map_of_mem Node.key hc')
      refine ⟨?_, ?_, ?_, ?_, ?_, ?_, ?_, ?_, ?_, ?_, ?_⟩
      · rw [hpost.len_eq]
      · rw [hpost.base_len]; simp [hst1]
      · rw [hpost.check_len]; simp [hst1]
      · rw [hpost.cursor_eq]; simp [hst1, BitCache.set]
      · intro x
        rw [hpost.bits_iff x]
        simp only [hst1, BitCache.set, List.mem_cons]
        constructor
        · rintro ((h1 | h1) | h2)
          · exact Or.inr ⟨c, by simp, h1⟩
          · exact Or.inl h1
          · rcases h2 with ⟨c', hc', he⟩
            exact Or.inr ⟨c', by simp [hc'], he⟩
        · rintro (h1 | ⟨c', hc', he⟩)
          · exact Or.inl (Or.inr h1)
          · rcases hc' with h | h
            · subst h; exact Or.inl (Or.inl he)
            · exact Or.inr ⟨c', h, he⟩
      · intro x hx
        rw [hpost.check_old x (fun c' hc' => hx c' (by simp [hc']))]
        simp only [hst1]
        exact getD_set_ne (fun he => hx c (by simp) he.symm) curr 0
      · intro c0 hc0
        rcases List.mem_cons.mp hc0 with h | h
        · subst h
          rw [hpost.check_old (b + c0.key) (fun c' hc' => hslotne c' hc')]
          simp only [hst1]
          exact getD_set_self hrc.1 curr 0
        · exact hpost.check_new c0 h
      · intro x hx
        rw [hpost.base_old x (fun c' hc' h255 => hx c' (by simp [hc']) h255)]
        simp only [hst1]
        exact getD_set_ne (fun he => hx c (by simp) hk he.symm) st.data.length 0
      · intro _
        constructor
        · rw [hpost.data_nov hno255]
        · intro c0 hc0 h255
          rcases List.mem_cons.mp hc0 with h | h
          · subst h
            rw [hpost.base_old (b + c0.key) (fun c' hc' _ => hslotne c' hc')]
            simp only [hst1]
            exact getD_set_self hrc.2 st.data.length 0
          · exact absurd h255 (hno255 c0 h)
      · intro hall
        exact absurd hk (hall c (by simp))
      · rw [hpost.stack_eq]
        have : (c :: cs').filter (fun c => c.key ≠ 255) = cs'.filter (fun c => c.key ≠ 255) := by
          simp only [List.filter_cons]
          rw [if_neg (by simp [hk])]
        rw [this]
    · -- real child: push onto the stack
      have hstep : placeChildren curr values b (c :: cs') st stack =
          placeChildren curr values b cs'
            ⟨st.len, st.base, st.check.set (b + c.key) curr, st.data, st.bc.set (b + c.key)⟩
            ((b + c.key, c) :: stack) := by
        simp only [placeChildren, if_neg hk]
      rw [hstep]
      set st1 : BuildState :=
        ⟨st.len, st.base, st.check.set (b + c.key) curr, st.data, st.bc.set (b + c.key)⟩ with hst1
      have hrange' : ∀ c' ∈ cs', b + c'.key < st1.check.length ∧ b + c'.key < st1.base.length := by
        intro c' hc'
        have := hrange c' (by simp [hc'])
        simpa [hst1] using this
      have hpost := ih st1 ((b + c.key, c) :: stack) hnodup' hrange'
      have hslotne : ∀ c' ∈ cs', b + c.key ≠ b + c'.key := by
        intro c' hc' he
        have : c.key = c'.key := by omega
        exact hknotin (by rw [this]; exact List.mem_map_of_mem Node.key hc')
      refine ⟨?_, ?_, ?_, ?_, ?_, ?_, ?_, ?_, ?_, ?_, ?_⟩
      · rw [hpost.len_eq]
      · rw [hpost.base_len]
      · rw [hpost.check_len]; simp [hst1]
      · rw [hpost.cursor_eq]; simp [hst1, BitCache.set]
      · intro x
        rw [hpost.bits_iff x]
        simp only [hst1, BitCache.set, List.mem_cons]
        constructor
        · rintro ((h1 | h1) | h2)
          · exact Or.inr ⟨c, by simp, h1⟩
          · exact Or.inl h1
          · rcases h2 with ⟨c', hc', he⟩
            exact Or.inr ⟨c', by simp [hc'], he⟩
        · rintro (h1 | ⟨c', hc', he⟩)
          · exact Or.inl (Or.inr h1)
          · rcases hc' with h | h
            · subst h; exact Or.inl (Or.inl he)
            · exact Or.inr ⟨c', h, he⟩
      · intro x hx
        rw [hpost.check_old x (fun c' hc' => hx c' (by simp [hc']))]
        simp only [hst1]
        exact getD_set_ne (fun he => hx c (by simp) he.symm) curr 0
      · intro c0 hc0
        rcases List.mem_cons.mp hc0 with h | h
        · subst h
          rw [hpost.check_old (b + c0.key) (fun c' hc' => hslotne c' hc')]
          simp only [hst1]
          exact getD_set_self hrc.1 curr 0
        · exact hpost.check_new c0 h
      · intro x hx
        rw [hpost.base_old x (fun c' hc' h255 => hx c' (by simp [hc']) h255)]
      · intro hex
        rcases hex with ⟨c0, hc0, h255⟩
        rcases List.mem_cons.mp hc0 with h | h
        · subst h; exact absurd h255 hk
        · have hdv := hpost.data_val ⟨c0, h, h255⟩
          constructor
          · exact hdv.1
          · intro c1 hc1 h255b
            rcases List.mem_cons.mp hc1 with h1 | h1
            · subst h1; exact absurd h255b hk
            · exact hdv.2 c1 h1 h255b
      · intro hall
        exact hpost.data_nov (fun c' hc' => hall c' (by simp [hc']))
      · rw [hpost.stack_eq]
        have : (c :: cs').filter (fun c => c.key ≠ 255) = c :: cs'.filter (fun c => c.key ≠ 255) := by
          simp only [List.filter_cons]
          rw [if_pos (by simp [hk])]
        rw [this]
        simp only [List.reverse_cons, List.map_append, List.map_cons, List.map_nil,
          List.append_assoc, List.cons_append, List.nil_append]

theorem maxList_mem {l : List Nat} (h : l ≠ []) : maxList l ∈ l := by
  induction l with
  | nil => exact absurd rfl h
  | cons a t ih =>
    by_cases ht : t = []
    · subst ht
      simp [maxList]
    · have hm := ih ht
      simp only [maxList, List.foldr_cons]
      rcases Nat.le_total a (t.foldr max 0) with hle | hle
      · rw [max_eq_right hle]
        exact List.mem_cons_of_mem a hm
      · rw [max_eq_left hle]
        simp

/-- Invariant of the `to_double_array` while-loop. -/
structure LoopInv (st : BuildState) (stack : List (Nat × Node)) : Prop where
  lenB : st.base.length = st.len
  lenC : st.check.length = st.len
  len256 : 256 ≤ st.len
  bits_lt : ∀ x ∈ st.bc.bits, x < st.len
  zero_mem : 0 ∈ st.bc.bits
  one_mem : 1 ∈ st.bc.bits
  cursor_le : st.bc.cursor ≤ st.len
  check_assigned : ∀ x, st.check.getD x 0 ≠ 0 → x ∈ st.bc.bits
  check_parents : ∀ x, st.check.getD x 0 ≠ 0 → st.check.getD x 0 ∈ st.bc.bits
  check_not_stack : ∀ x, ∀ p ∈ stack, st.check.getD x 0 ≠ p.1
  stack_bits : ∀ p ∈ stack, p.1 ∈ st.bc.bits
  stack_pos : ∀ p ∈ stack, 1 ≤ p.1
  stack_nodup : (stack.map Prod.fst).Nodup
  stack_good : ∀ p ∈ stack, Node.Good p.2
  stack_ne : ∀ p ∈ stack, p.2.values ≠ [] ∨ p.2.nexts ≠ []
  stack_vals : ∀ p ∈ stack, ValsLt p.2 ∧ valsTotal p.2 < 2 ^ 64

/-- What the remainder of the loop guarantees about its final state. -/
structure LoopPost (st : BuildState) (stack : List (Nat × Node)) (fin : BuildState) : Prop where
  lenB : fin.base.length = fin.len
  lenC : fin.check.length = fin.len
  len_mono : st.len ≤ fin.len
  bits_grow : ∀ x ∈ st.bc.bits, x ∈ fin.bc.bits
  bits_lt : ∀ x ∈ fin.bc.bits, x < fin.len
  data_ext : ∃ ext, fin.data = st.data ++ ext
  check_frame : ∀ x ∈ st.bc.bits, fin.check.getD x 0 = st.check.getD x 0
  base_frame : ∀ x ∈ st.bc.bits, (∀ p ∈ stack, x ≠ p.1) → fin.base.getD x 0 = st.base.getD x 0
  check_assigned : ∀ x, fin.check.getD x 0 ≠ 0 → x ∈ fin.bc.bits
  no_new_parent : ∀ j ∈ st.bc.bits, (∀ p ∈ stack, j ≠ p.1) →
    ∀ x, fin.check.getD x 0 = j → st.check.getD x 0 = j
  emb : ∀ p ∈ stack, Emb fin.base fin.check fin.data p.1 p.2

theorem buildLoop_post : ∀ (fuel : Nat) (st : BuildState) (stack : List (Nat × Node)),
    LoopInv st stack → stackSize stack < fuel →
    ∃ fin, buildLoop fuel st stack = some fin ∧ LoopPost st stack fin := by
  intro fuel
  induction fuel with
  | zero => intro st stack _ h; omega
  | succ f ih =>
    intro st stack hinv hfuel
    cases stack with
    | nil =>
      refine ⟨st, rfl, ?_⟩
      exact ⟨hinv.lenB, hinv.lenC, le_refl _, fun x h => h, hinv.bits_lt, ⟨[], by simp⟩,
        fun x _ => rfl, fun x _ _ => rfl, hinv.check_assigned, fun j _ _ x h => h,
        fun p hp => absurd hp (List.not_mem_nil p)⟩
    | cons p rest =>
      obtain ⟨curr, node⟩ := p
      have hcurr_bits : curr ∈ st.bc.bits := hinv.stack_bits (curr, node) (by simp)
      have hcurr_pos : 1 ≤ curr := hinv.stack_pos (curr, node) (by simp)
      have hgood : Node.Good node := hinv.stack_good (curr, node) (by simp)
      have hvok : ValsLt node ∧ valsTotal node < 2 ^ 64 :=
        hinv.stack_vals (curr, node) (by simp)
      have hnev : node.values ≠ [] ∨ node.nexts ≠ [] := hinv.stack_ne (curr, node) (by simp)
      have hcurr_lt : curr < st.len := hinv.bits_lt curr hcurr_bits
      have hcurr_rest : ∀ p ∈ rest, curr ≠ p.1 := by
        intro p hp he
        have hnd := hinv.stack_nodup
        simp only [List.map_cons, List.nodup_cons] at hnd
        exact hnd.1 (he ▸ List.mem_map_of_mem Prod.fst hp)
      -- the updated bit-cache
      have hbits_ne : st.bc.bits ≠ [] := fun hc => by
        have := hinv.zero_mem
        rw [hc] at this
        simp at this
      have hmax_lt : maxList st.bc.bits < st.len := hinv.bits_lt _ (maxList_mem hbits_ne)
      have hbc1bits : (st.bc.updateStart).bits = st.bc.bits := rfl
      have hcur1 : (st.bc.updateStart).cursor ≤ st.len := by
        have h1 := leastFree_le_max st.bc.bits st.bc.cursor
        have h2 := hinv.cursor_le
        simp only [BitCache.updateStart]
        omega
      -- the (possibly sentinel-extended) child list
      set nexts1 := if node.values.isEmpty then node.nexts
        else node.nexts ++ [(⟨255, [], []⟩ : Node)] with hnexts1
      have hvcases : (nexts1 = node.nexts ∧ node.values = []) ∨
          (nexts1 = node.nexts ++ [(⟨255, [], []⟩ : Node)] ∧ node.values ≠ []) := by
        by_cases hv : node.values.isEmpty
        · refine Or.inl ⟨by rw [hnexts1, if_pos hv], ?_⟩
          cases hval : node.values with
          | nil => rfl
          | cons a t => rw [hval] at hv; simp [List.isEmpty] at hv
        · refine Or.inr ⟨by rw [hnexts1, if_neg hv], ?_⟩
          intro hc
          rw [hc] at hv
          simp [List.isEmpty] at hv
      have hne1 : nexts1 ≠ [] := by
        rcases hvcases with ⟨he, hv⟩ | ⟨he, _⟩
        · rw [he]
          rcases hnev with h | h
          · exact absurd hv h
          · exact h
        · rw [he]; simp
      have hmem1 : ∀ c ∈ nexts1, c ∈ node.nexts ∨ (node.values ≠ [] ∧ c = ⟨255, [], []⟩) := by
        intro c hc
        rcases hvcases with ⟨he, _⟩ | ⟨he, hv⟩
        · rw [he] at hc; exact Or.inl hc
        · rw [he] at hc
          rcases List.mem_append.mp hc with h | h
          · exact Or.inl h
          · exact Or.inr ⟨hv, by simpa using h⟩
      have hsent : node.values ≠ [] → (⟨255, [], []⟩ : Node) ∈ nexts1 := by
        intro hv
        rcases hvcases with ⟨_, hveq⟩ | ⟨he, _⟩
        · exact absurd hveq hv
        · rw [he]; simp
      have hreal : ∀ c ∈ node.nexts, c ∈ nexts1 := by
        intro c hc
        rcases hvcases with ⟨he, _⟩ | ⟨he, _⟩
        · rw [he]; exact hc
        · rw [he]; exact List.mem_append_left _ hc
      have hkeys1 : ∀ c ∈ nexts1, c.key ≤ 255 := by
        intro c hc
        rcases hmem1 c hc with h | ⟨_, h⟩
        · have := hgood.keys c h; omega
        · subst h; simp
      have hfilter_real : nexts1.filter (fun c => c.key ≠ 255) = node.nexts := by
        have hrealf : node.nexts.filter (fun c => c.key ≠ 255) = node.nexts := by
          apply List.filter_eq_self.mpr
          intro c hc
          have hlt := hgood.keys c hc
          simp only [decide_eq_true_eq]
          omega
        rcases hvcases with ⟨he, _⟩ | ⟨he, _⟩
        · rw [he, hrealf]
        · rw [he, List.filter_append, hrealf]
          simp
      have hnodup1 : (nexts1.map Node.key).Nodup := by
        have hrealnd : (node.nexts.map Node.key).Nodup := by
          have hp := hgood.sort
          have : (node.nexts.map Node.key).Pairwise (· < ·) := List.pairwise_map.mpr hp
          exact this.imp Nat.ne_of_lt
        rcases hvcases with ⟨he, _⟩ | ⟨he, _⟩
        · rw [he]; exact hrealnd
        · rw [he, List.map_append]
          apply List.Nodup.append hrealnd (by simp)
          intro a ha hb
          simp only [List.map_cons, List.map_nil, List.mem_singleton] at hb
          rcases List.mem_map.mp ha with ⟨c, hc, hk⟩
          have := hgood.keys c hc
          omega
      -- find_base succeeds and its result fits
      obtain ⟨b, hfb⟩ : ∃ b, findBase nexts1 st.bc.updateStart = some b := by
        have := findBase_isSome hne1 st.bc.updateStart
        exact Option.isSome_iff_exists.mp this
      have hfits0 := findBase_fits hfb
      have hfits : ∀ c ∈ nexts1, b + c.key ∉ st.bc.bits := fun c hc => hfits0 c hc
      have hble : b ≤ st.len := by
        apply findBase_le hfb
        · intro x hx
          exact hinv.bits_lt x hx
        · exact hcur1
        · exact hinv.len256
      -- the (possibly doubled) intermediate state
      set st2 : BuildState := if b + 256 ≥ st.len then
          ⟨st.len * 2, st.base.set curr b ++ List.replicate st.len 0,
            st.check ++ List.replicate st.len 0, st.data, st.bc.updateStart⟩
        else ⟨st.len, st.base.set curr b, st.check, st.data, st.bc.updateStart⟩ with hst2
      have hlen2_ge : st.len ≤ st2.len := by
        rw [hst2]; split <;> simp <;> omega
      have hlen2_256 : 256 ≤ st2.len := le_trans hinv.len256 hlen2_ge
      have hb255 : b + 255 < st2.len := by
        rw [hst2]
        split
        · rename_i h
          simp only
          have := hinv.len256
          omega
        · rename_i h
          simp only
          omega
      have hbase2len : st2.base.length = st2.len := by
        rw [hst2]
        split <;> simp [hinv.lenB] <;> omega
      have hcheck2len : st2.check.length = st2.len := by
        rw [hst2]
        split <;> simp [hinv.lenC] <;> omega
      have hbc2 : st2.bc = st.bc.updateStart := by
        rw [hst2]; split <;> rfl
      have hdata2 : st2.data = st.data := by
        rw [hst2]; split <;> rfl
      have hcheck2getD : ∀ x, st2.check.getD x 0 = st.check.getD x 0 := by
        intro x
        rw [hst2]
        split
        · simp only
          by_cases hx : x < st.check.length
          · exact getD_append_left hx 0
          · rw [getD_append_right (by omega) 0, getD_replicate, getD_eq_of_ge (by omega) 0]
            split <;> rfl
        · rfl
      have hbase2getD : ∀ x, st2.base.getD x 0 = (st.base.set curr b).getD x 0 := by
        intro x
        rw [hst2]
        split
        · simp only
          by_cases hx : x < (st.base.set curr b).length
          · exact getD_append_left hx 0
          · rw [getD_append_right (by omega) 0, getD_replicate,
              getD_eq_of_ge (by omega) 0]
            split <;> rfl
        · rfl
      have hbase2curr : st2.base.getD curr 0 = b := by
        rw [hbase2getD curr]
        exact getD_set_self (by rw [hinv.lenB]; exact hcurr_lt) b 0
      -- place the children
      have hrange : ∀ c ∈ nexts1, b + c.key < st2.check.length ∧ b + c.key < st2.base.length := by
        intro c hc
        have := hkeys1 c hc
        constructor
        · rw [hcheck2len]; omega
        · rw [hbase2len]; omega
      have hbc2bits : st2.bc.bits = st.bc.bits := by rw [hbc2]; rfl
      have hpl := placeChildren_post curr node.values b nexts1 st2 rest hnodup1 hrange
      set out := placeChildren curr node.values b nexts1 st2 rest with hout
      have hslot_nz : ∀ c ∈ nexts1, b + c.key ≠ 0 := by
        intro c hc he
        exact hfits c hc (he ▸ hinv.zero_mem)
      have hslot_ne1 : ∀ c ∈ nexts1, b + c.key ≠ 1 := by
        intro c hc he
        exact hfits c hc (he ▸ hinv.one_mem)
      have hbits3 : ∀ x, x ∈ out.1.bc.bits ↔ x ∈ st.bc.bits ∨ ∃ c ∈ nexts1, x = b + c.key := by
        intro x
        rw [hpl.bits_iff x, hbc2bits]
      have hstack3 : out.2 =
          ((nexts1.filter (fun c => c.key ≠ 255)).reverse.map (fun c => (b + c.key, c))) ++ rest :=
        hpl.stack_eq
      have hstack3r : out.2 = (node.nexts.reverse.map (fun c => (b + c.key, c))) ++ rest := by
        rw [hstack3, hfilter_real]
      have hnp_mem : ∀ q ∈ node.nexts.reverse.map (fun c => (b + c.key, c)),
          ∃ c ∈ node.nexts, q = (b + c.key, c) := by
        intro q hq
        rcases List.mem_map.mp hq with ⟨c, hc, he⟩
        exact ⟨c, List.mem_reverse.mp hc, he.symm⟩
      -- the invariant for the recursive call
      have hinv3 : LoopInv out.1 out.2 := by
        refine ⟨?_, ?_, ?_, ?_, ?_, ?_, ?_, ?_, ?_, ?_, ?_, ?_, ?_, ?_, ?_, ?_⟩
        · rw [hpl.base_len, hbase2len, hpl.len_eq]
        · rw [hpl.check_len, hcheck2len, hpl.len_eq]
        · rw [hpl.len_eq]; exact hlen2_256
        · intro x hx
          rw [hpl.len_eq]
          rcases (hbits3 x).mp hx with h | ⟨c, hc, he⟩
          · have := hinv.bits_lt x h
            omega
          · subst he
            have := hkeys1 c hc
            omega
        · exact (hbits3 0).mpr (Or.inl hinv.zero_mem)
        · exact (hbits3 1).mpr (Or.inl hinv.one_mem)
        · rw [hpl.cursor_eq, hbc2, hpl.len_eq]
          exact le_trans hcur1 hlen2_ge
        · intro x hx
          by_cases hslot : ∃ c ∈ nexts1, x = b + c.key
          · exact (hbits3 x).mpr (Or.inr hslot)
          · rw [hpl.check_old x (fun c hc he => hslot ⟨c, hc, he⟩), hcheck2getD] at hx
            exact (hbits3 x).mpr (Or.inl (hinv.check_assigned x hx))
        · intro x hx
          by_cases hslot : ∃ c ∈ nexts1, x = b + c.key
          · rcases hslot with ⟨c, hc, he⟩
            subst he
            rw [hpl.check_new c hc]
            exact (hbits3 curr).mpr (Or.inl hcurr_bits)
          · rw [hpl.check_old x (fun c hc he => hslot ⟨c, hc, he⟩), hcheck2getD] at hx ⊢
            exact (hbits3 _).mpr (Or.inl (hinv.check_parents x hx))
        · intro x q hq
          rw [hstack3r] at hq
          rcases List.mem_append.mp hq with hq | hq
          · rcases hnp_mem q hq with ⟨c, hc, he⟩
            subst he
            simp only
            by_cases hslot : ∃ c2 ∈ nexts1, x = b + c2.key
            · rcases hslot with ⟨c2, hc2, he2⟩
              subst he2
              rw [hpl.check_new c2 hc2]
              intro he3
              exact hfits c (hreal c hc) (he3 ▸ hcurr_bits)
            · rw [hpl.check_old x (fun c2 hc2 he2 => hslot ⟨c2, hc2, he2⟩), hcheck2getD]
              intro he3
              by_cases hz : st.check.getD x 0 = 0
              · exact hslot_nz c (hreal c hc) (by omega)
              · exact hfits c (hreal c hc) (he3 ▸ hinv.check_parents x hz)
          · by_cases hslot : ∃ c2 ∈ nexts1, x = b + c2.key
            · rcases hslot with ⟨c2, hc2, he2⟩
              subst he2
              rw [hpl.check_new c2 hc2]
              intro he3
              exact hcurr_rest q hq he3
            · rw [hpl.check_old x (fun c2 hc2 he2 => hslot ⟨c2, hc2, he2⟩), hcheck2getD]
              exact hinv.check_not_stack x q (by simp [hq])
        · intro q hq
          rw [hstack3r] at hq
          rcases List.mem_append.mp hq with hq | hq
          · rcases hnp_mem q hq with ⟨c, hc, he⟩
            subst he
            exact (hbits3 _).mpr (Or.inr ⟨c, hreal c hc, rfl⟩)
          · exact (hbits3 _).mpr (Or.inl (hinv.stack_bits q (by simp [hq])))
        · intro q hq
          rw [hstack3r] at hq
          rcases List.mem_append.mp hq with hq | hq
          · rcases hnp_mem q hq with ⟨c, hc, he⟩
            subst he
            have := hslot_nz c (hreal c hc)
            simp only
            omega
          · exact hinv.stack_pos q (by simp [hq])
        · rw [hstack3r, List.map_append]
          have hkeysnd : (node.nexts.reverse.map Node.key).Nodup := by
            rw [List.map_reverse, List.nodup_reverse]
            have hp := hgood.sort
            exact (List.pairwise_map.mpr hp).imp Nat.ne_of_lt
          have hA : (node.nexts.reverse.map (fun c => (b + c.key, c))).map Prod.fst =
              (node.nexts.reverse.map Node.key).map (fun k => b + k) := by
            rw [List.map_map, List.map_map]
            rfl
          rw [hA]
          apply List.Nodup.append
          · exact List.Nodup.map (fun a1 a2 he => by omega) hkeysnd
          · have h2 := hinv.stack_nodup
            simp only [List.map_cons, List.nodup_cons] at h2
            exact h2.2
          · intro a ha hb2
            rcases List.mem_map.mp ha with ⟨k, hk, he⟩
            rcases List.mem_map.mp hk with ⟨c, hc, hkey⟩
            rcases List.mem_map.mp hb2 with ⟨q, hq, he2⟩
            have h4 : q.1 ∈ st.bc.bits := hinv.stack_bits q (by simp [hq])
            rw [he2, ← he, ← hkey] at h4
            exact hfits c (hreal c (List.mem_reverse.mp hc)) h4
        · intro q hq
          rw [hstack3r] at hq
          rcases List.mem_append.mp hq with hq | hq
          · rcases hnp_mem q hq with ⟨c, hc, he⟩
            subst he
            exact hgood.ch c hc
          · exact hinv.stack_good q (by simp [hq])
        · intro q hq
          rw [hstack3r] at hq
          rcases List.mem_append.mp hq with hq | hq
          · rcases hnp_mem q hq with ⟨c, hc, he⟩
            subst he
            simp only
            by_cases hcn : c.nexts = []
            · exact Or.inl (hgood.leaf c hc hcn)
            · exact Or.inr hcn
          · exact hinv.stack_ne q (by simp [hq])
        · intro q hq
          rw [hstack3r] at hq
          rcases List.mem_append.mp hq with hq | hq
          · rcases hnp_mem q hq with ⟨c, hc, he⟩
            subst he
            constructor
            · exact hvok.1.sub c hc
            · have h1 : valsTotal c ≤ valsTotalL node.nexts := valsTotalL_mem hc
              have h2 := valsTotal_eq node
              have := hvok.2
              simp only
              omega
          · exact hinv.stack_vals q (by simp [hq])
      -- the fuel decreases
      have hsize : stackSize out.2 < f := by
        rw [hstack3r, stackSize_append]
        have h1 : stackSize (node.nexts.reverse.map (fun c => (b + c.key, c))) =
            nodesSize node.nexts := by
          rw [stackSize_map, nodesSize_reverse]
        rw [h1]
        have h2 := nodeSize_eq node
        have h3 : stackSize ((curr, node) :: rest) = nodeSize node + stackSize rest := rfl
        rw [h3] at hfuel
        omega
      obtain ⟨fin, hfin, hpost⟩ := ih out.1 out.2 hinv3 hsize
      -- one unfolding of the loop
      have hunfold : buildLoop (f + 1) st ((curr, node) :: rest) =
          match findBase nexts1 st.bc.updateStart with
          | none => none
          | some b0 =>
            buildLoop f
              (placeChildren curr node.values b0 nexts1
                (if b0 + 256 ≥ st.len then
                  ⟨st.len * 2, st.base.set curr b0 ++ List.replicate st.len 0,
                    st.check ++ List.replicate st.len 0, st.data, st.bc.updateStart⟩
                 else ⟨st.len, st.base.set curr b0, st.check, st.data, st.bc.updateStart⟩) rest).1
              (placeChildren curr node.values b0 nexts1
                (if b0 + 256 ≥ st.len then
                  ⟨st.len * 2, st.base.set curr b0 ++ List.replicate st.len 0,
                    st.check ++ List.replicate st.len 0, st.data, st.bc.updateStart⟩
                 else ⟨st.len, st.base.set curr b0, st.check, st.data, st.bc.updateStart⟩) rest).2 := rfl
      have hstep : buildLoop (f + 1) st ((curr, node) :: rest) = buildLoop f out.1 out.2 := by
        rw [hunfold, hfb]
      -- helper facts for the composed postcondition
      have hbits_sub3 : ∀ x ∈ st.bc.bits, x ∈ out.1.bc.bits :=
        fun x hx => (hbits3 x).mpr (Or.inl hx)
      have hnotslot : ∀ x ∈ st.bc.bits, ∀ c ∈ nexts1, x ≠ b + c.key :=
        fun x hx c hc he => hfits c hc (he ▸ hx)
      have hnot3 : ∀ x ∈ st.bc.bits, (∀ p ∈ (curr, node) :: rest, x ≠ p.1) →
          ∀ q ∈ out.2, x ≠ q.1 := by
        intro x hx hxs q hq
        rw [hstack3r] at hq
        rcases List.mem_append.mp hq with hq | hq
        · rcases hnp_mem q hq with ⟨c, hc, he⟩
          subst he
          exact hnotslot x hx c (hreal c hc)
        · exact hxs q (by simp [hq])
      have hdata3 : (node.values = [] ∧ out.1.data = st.data) ∨
          (node.values ≠ [] ∧ out.1.data = st.data ++ encodeVals node.values ∧
            out.1.base.getD (b + 255) 0 = st.data.length) := by
        rcases hvcases with ⟨he, hv⟩ | ⟨he, hv⟩
        · refine Or.inl ⟨hv, ?_⟩
          rw [hpl.data_nov ?_, hdata2]
          intro c hc
          rw [he] at hc
          have := hgood.keys c hc
          omega
        · have hsm : (⟨255, [], []⟩ : Node) ∈ nexts1 := hsent hv
          have hdv := hpl.data_val ⟨⟨255, [], []⟩, hsm, rfl⟩
          refine Or.inr ⟨hv, ?_, ?_⟩
          · rw [hdv.1, hdata2]
          · have := hdv.2 ⟨255, [], []⟩ hsm rfl
            rw [hdata2] at this
            exact this
      have hcurr_not3 : ∀ q ∈ out.2, curr ≠ q.1 := by
        intro q hq
        rw [hstack3r] at hq
        rcases List.mem_append.mp hq with hq | hq
        · rcases hnp_mem q hq with ⟨c, hc, he⟩
          subst he
          exact hnotslot curr hcurr_bits c (hreal c hc)
        · exact hcurr_rest q hq
      have hfincheck_slot : ∀ c ∈ nexts1, fin.check.getD (b + c.key) 0 = curr := by
        intro c hc
        rw [hpost.check_frame (b + c.key) ((hbits3 _).mpr (Or.inr ⟨c, hc, rfl⟩))]
        exact hpl.check_new c hc
      have hfinbase_curr : fin.base.getD curr 0 = b := by
        rw [hpost.base_frame curr (hbits_sub3 curr hcurr_bits) hcurr_not3]
        rw [hpl.base_old curr (fun c hc _ => hnotslot curr hcurr_bits c hc), hbase2curr]
      have hfinlen : b + 255 < fin.len := by
        have h1 : out.1.len ≤ fin.len := hpost.len_mono
        rw [hpl.len_eq] at h1
        omega
      have hembhead : Emb fin.base fin.check fin.data curr node := by
        refine Emb.intro curr node hcurr_pos ?_ ?_ ?_ ?_ ?_
        · rw [hfinbase_curr, hpost.lenC]
          exact hfinlen
        · intro c hc
          rw [hfinbase_curr]
          exact hfincheck_slot c (hreal c hc)
        · intro c hc
          rw [hfinbase_curr]
          have hq : (b + c.key, c) ∈ out.2 := by
            rw [hstack3r]
            apply List.mem_append_left
            exact List.mem_map_of_mem _ (List.mem_reverse.mpr hc)
          exact hpost.emb (b + c.key, c) hq
        · intro hv
          rw [hfinbase_curr]
          have hsm : (⟨255, [], []⟩ : Node) ∈ nexts1 := hsent hv
          have hc1 : fin.check.getD (b + 255) 0 = curr := by
            have := hfincheck_slot ⟨255, [], []⟩ hsm
            simpa using this
          have hvslot_bits : b + 255 ∈ out.1.bc.bits := by
            apply (hbits3 _).mpr
            exact Or.inr ⟨⟨255, [], []⟩, hsm, rfl⟩
          have hvslot_not : ∀ q ∈ out.2, b + 255 ≠ q.1 := by
            intro q hq
            rw [hstack3r] at hq
            rcases List.mem_append.mp hq with hq | hq
            · rcases hnp_mem q hq with ⟨c, hc, he⟩
              subst he
              simp only
              have hck : c.key < 255 := hgood.keys c hc
              omega
            · intro he
              have : q.1 ∈ st.bc.bits := hinv.stack_bits q (by simp [hq])
              rw [← he] at this
              exact hfits ⟨255, [], []⟩ hsm this
          have hb1 : fin.base.getD (b + 255) 0 = st.data.length := by
            rw [hpost.base_frame (b + 255) hvslot_bits hvslot_not]
            rcases hdata3 with ⟨hv0, _⟩ | ⟨_, _, h3⟩
            · exact absurd hv0 hv
            · exact h3
          have hfindata : ∃ ext2, fin.data = st.data ++ encodeVals node.values ++ ext2 := by
            rcases hpost.data_ext with ⟨ext, hext⟩
            rcases hdata3 with ⟨hv0, _⟩ | ⟨_, h2, _⟩
            · exact absurd hv0 hv
            · exact ⟨ext, by rw [hext, h2]⟩
          rcases hfindata with ⟨ext2, hext2⟩
          refine ⟨hc1, ?_, ?_⟩
          · rw [hb1, hext2]
            simp [List.length_append]
          · rw [hb1, hext2, List.append_assoc, List.drop_left]
            apply decodeVals_encodeVals
            · have h1 := valsTotal_eq node
              have h2 := hvok.2
              omega
            · exact hvok.1.vals
        · intro byte hbyte hcheck
          rw [hfinbase_curr] at hcheck
          by_cases hy : b + byte ∈ out.1.bc.bits
          · rw [hpost.check_frame (b + byte) hy] at hcheck
            by_cases hslot : ∃ c ∈ nexts1, b + byte = b + c.key
            · rcases hslot with ⟨c, hc, he⟩
              have hbk : byte = c.key := by omega
              rcases hmem1 c hc with h | ⟨hv, hs⟩
              · exact Or.inr ⟨c, h, hbk.symm⟩
              · subst hs
                simp only at hbk
                exact Or.inl ⟨hbk, hv⟩
            · rw [hpl.check_old (b + byte) (fun c hc he => hslot ⟨c, hc, he⟩),
                hcheck2getD] at hcheck
              exact absurd hcheck (hinv.check_not_stack (b + byte) (curr, node) (by simp))
          · exfalso
            have hne0 : fin.check.getD (b + byte) 0 ≠ 0 := by
              rw [hcheck]; omega
            have hfb2 : b + byte ∈ fin.bc.bits := hpost.check_assigned _ hne0
            have h3 : out.1.check.getD (b + byte) 0 = curr := by
              apply hpost.no_new_parent curr (hbits_sub3 curr hcurr_bits) hcurr_not3 _ hcheck
            have h4 : out.1.check.getD (b + byte) 0 ≠ 0 := by rw [h3]; omega
            exact hy (hinv3.check_assigned _ h4)
      -- assemble the postcondition for the whole stack
      refine ⟨fin, by rw [hstep]; exact hfin, ?_⟩
      refine ⟨hpost.lenB, hpost.lenC, ?_, ?_, hpost.bits_lt, ?_, ?_, ?_,
        hpost.check_assigned, ?_, ?_⟩
      · have h1 : out.1.len ≤ fin.len := hpost.len_mono
        rw [hpl.len_eq] at h1
        omega
      · exact fun x hx => hpost.bits_grow x (hbits_sub3 x hx)
      · rcases hpost.data_ext with ⟨ext, hext⟩
        rcases hdata3 with ⟨_, h2⟩ | ⟨_, h2, _⟩
        · exact ⟨ext, by rw [hext, h2]⟩
        · exact ⟨encodeVals node.values ++ ext, by rw [hext, h2, List.append_assoc]⟩
      · intro x hx
        rw [hpost.check_frame x (hbits_sub3 x hx),
          hpl.check_old x (hnotslot x hx), hcheck2getD]
      · intro x hx hxs
        rw [hpost.base_frame x (hbits_sub3 x hx) (hnot3 x hx hxs),
          hpl.base_old x (fun c hc _ => hnotslot x hx c hc), hbase2getD]
        exact getD_set_ne (fun he => hxs (curr, node) (by simp) he.symm) b 0
      · intro j hj hjs x hx
        have h1 : out.1.check.getD x 0 = j := by
          apply hpost.no_new_parent j (hbits_sub3 j hj) (hnot3 j hj hjs) x hx
        by_cases hslot : ∃ c ∈ nexts1, x = b + c.key
        · exfalso
          rcases hslot with ⟨c, hc, he⟩
          subst he
          rw [hpl.check_new c hc] at h1
          exact hjs (curr, node) (by simp) h1.symm
        · rw [hpl.check_old x (fun c hc he => hslot ⟨c, hc, he⟩), hcheck2getD] at h1
          exact h1
      · intro q hq
        rcases List.mem_cons.mp hq with h | h
        · rw [h]
          exact hembhead
        · apply hpost.emb
          rw [hstack3r]
          exact List.mem_append_right _ h

/-! ### The final resize and the compiled arrays -/

theorem length_resizeTo (l : List Nat) (n : Nat) : (resizeTo l n).length = n := by
  simp only [resizeTo, List.length_append, List.length_take, List.length_replicate]
  omega

theorem getD_resizeTo (l : List Nat) (n i : Nat) :
    (resizeTo l n).getD i 0 = if i < n then l.getD i 0 else 0 := by
  by_cases hi : i < n
  · rw [if_pos hi]
    simp only [resizeTo]
    by_cases ht : i < (l.take n).length
    · rw [getD_append_left ht 0, getD_take hi 0]
      rw [List.length_take] at ht
      rw [if_pos (by omega)]
    · rw [getD_append_right (by omega) 0, getD_replicate]
      rw [List.length_take] at ht
      rw [getD_eq_of_ge (by omega) 0]
      split <;> rfl
  · rw [if_neg hi]
    apply getD_eq_of_ge
    rw [length_resizeTo]
    omega

theorem resizeTo_replicate (m n : Nat) :
    resizeTo (List.replicate m 0) n = List.replicate n 0 := by
  simp only [resizeTo, List.take_replicate, List.length_replicate]
  rw [← List.replicate_add]
  congr 1
  omega

/-- The embedding relation survives the final `resize` of `to_double_array`:
every slot an `Emb` fact mentions is either assigned (hence in the bit cache,
hence `≤ M < newLen`) or reachable from one that is. -/
theorem Emb_resize {B C D : List Nat} {bits : List Nat} {M newLen : Nat}
    (hlen : B.length = C.length)
    (hzero : ∀ x, C.getD x 0 ≠ 0 → x ∈ bits)
    (hmax : ∀ x ∈ bits, x ≤ M)
    (hnew : newLen = M + 256) :
    ∀ (i : Nat) (nd : Node), Emb B C D i nd → i ∈ bits → Node.Good nd →
      (nd.values ≠ [] ∨ nd.nexts ≠ []) →
      Emb (resizeTo B newLen) (resizeTo C newLen) D i nd := by
  intro i nd hemb
  induction hemb with
  | intro i nd hi hbound hchildC hchildE hval hcomp ih =>
    intro hibits hgood hne
    have hiM : i ≤ M := hmax i hibits
    have hilt : i < newLen := by omega
    have hbM : B.getD i 0 + 255 < newLen := by
      rcases hne with hv | hx
      · have h1 := (hval hv).1
        have h2 : B.getD i 0 + 255 ∈ bits := hzero _ (by rw [h1]; omega)
        have := hmax _ h2
        omega
      · cases hcs : nd.nexts with
        | nil => exact absurd hcs hx
        | cons c0 cs =>
          have h1 := hchildC c0 (by rw [hcs]; simp)
          have h2 : B.getD i 0 + c0.key ∈ bits := hzero _ (by rw [h1]; omega)
          have h3 := hmax _ h2
          omega
    have hBi : (resizeTo B newLen).getD i 0 = B.getD i 0 := by
      rw [getD_resizeTo, if_pos hilt]
    refine Emb.intro i nd hi ?_ ?_ ?_ ?_ ?_
    · rw [hBi, length_resizeTo]
      exact hbM
    · intro c hc
      rw [hBi, getD_resizeTo, if_pos (by have := hgood.keys c hc; omega)]
      exact hchildC c hc
    · intro c hc
      rw [hBi]
      have hkc := hgood.keys c hc
      have hslot : B.getD i 0 + c.key ∈ bits :=
        hzero _ (by rw [hchildC c hc]; omega)
      have hnec : c.values ≠ [] ∨ c.nexts ≠ [] := by
        by_cases hcn : c.nexts = []
        · exact Or.inl (hgood.leaf c hc hcn)
        · exact Or.inr hcn
      exact ih c hc hslot (hgood.ch c hc) hnec
    · intro hv
      rcases hval hv with ⟨h1, h2, h3⟩
      rw [hBi]
      refine ⟨?_, ?_, ?_⟩
      · rw [getD_resizeTo, if_pos (by omega)]
        exact h1
      · rw [getD_resizeTo, if_pos (by omega)]
        exact h2
      · rw [getD_resizeTo, if_pos (by omega)]
        exact h3
    · intro byte hbyte hc
      rw [hBi] at hc
      rw [getD_resizeTo] at hc
      split at hc
      · exact hcomp byte hbyte hc
      · omega

/-- The truncation side condition of the `as u32` casts in `to_double_array`:
`true` iff no stored BASE/CHECK entry is cut down by the cast. -/
def fitsU32 (t : Trie) : Bool :=
  match t.buildArrays with
  | some (b, c, _) => (b ++ c).all (fun x => x < 2 ^ 32)
  | none => true

theorem fitsU32_spec {t : Trie} {B C D : List Nat} (hba : t.buildArrays = some (B, C, D))
    (hfit : fitsU32 t = true) : (∀ x ∈ B, x < 2 ^ 32) ∧ (∀ x ∈ C, x < 2 ^ 32) := by
  unfold fitsU32 at hfit
  rw [hba] at hfit
  simp only [List.all_eq_true, List.mem_append, decide_eq_true_eq] at hfit
  exact ⟨fun x hx => hfit x (Or.inl hx), fun x hx => hfit x (Or.inr hx)⟩

theorem buildArrays_nil (t : Trie) (h : t.root.nexts = []) :
    t.buildArrays = some (List.replicate 257 0, List.replicate 257 0, []) := by
  have hie : t.root.nexts.isEmpty = true := by rw [h]; rfl
  unfold Trie.buildArrays
  simp only [hie, if_true, buildLoop, BitCache.lastIndexOfOne, BitCache.new, BitCache.set,
    maxList]
  rw [resizeTo_replicate]
  rfl

theorem buildArrays_cons (t : Trie) (hg : Node.Good t.root) (hvl : ValsLt t.root)
    (hvt : valsTotal t.root < 2 ^ 64) (hroot : t.root.nexts ≠ []) :
    ∃ B C D, t.buildArrays = some (B, C, D) ∧
      B.length = C.length ∧ 257 ≤ C.length ∧ Emb B C D 1 t.root := by
  have hie : t.root.nexts.isEmpty = false := by
    cases hcs : t.root.nexts with
    | nil => exact absurd hcs hroot
    | cons a l => rfl
  set len0 : Nat := if 256 > 4 * t.len then 256 else 4 * t.len with hlen0
  have hlen0_256 : 256 ≤ len0 := by
    rw [hlen0]; split <;> omega
  set st0 : BuildState :=
    ⟨len0, List.replicate len0 0, List.replicate len0 0, [], (BitCache.new.set 0).set 1⟩
    with hst0
  have hbits0 : st0.bc.bits = [1, 0] := rfl
  have hC0 : ∀ x, st0.check.getD x 0 = 0 := by
    intro x
    show (List.replicate len0 0).getD x 0 = 0
    rw [getD_replicate]
    split <;> rfl
  have hinv0 : LoopInv st0 [(1, t.root)] := by
    refine ⟨?_, ?_, ?_, ?_, ?_, ?_, ?_, ?_, ?_, ?_, ?_, ?_, ?_, ?_, ?_, ?_⟩
    · show (List.replicate len0 0).length = len0
      exact List.length_replicate len0 0
    · show (List.replicate len0 0).length = len0
      exact List.length_replicate len0 0
    · exact hlen0_256
    · intro x hx
      rw [hbits0] at hx
      rcases List.mem_cons.mp hx with h | h
      · subst h; show 1 < len0; omega
      · simp only [List.mem_singleton] at h
        subst h; show 0 < len0; omega
    · rw [hbits0]; simp
    · rw [hbits0]; simp
    · show (0 : Nat) ≤ len0
      omega
    · intro x hx
      exact absurd (hC0 x) hx
    · intro x hx
      exact absurd (hC0 x) hx
    · intro x q hq
      rw [hC0 x]
      have := (List.mem_singleton.mp hq)
      subst this
      simp
    · intro q hq
      have := List.mem_singleton.mp hq
      subst this
      rw [hbits0]; simp
    · intro q hq
      have := List.mem_singleton.mp hq
      subst this
      exact le_refl 1
    · simp
    · intro q hq
      have := List.mem_singleton.mp hq
      subst this
      exact hg
    · intro q hq
      have := List.mem_singleton.mp hq
      subst this
      exact Or.inr hroot
    · intro q hq
      have := List.mem_singleton.mp hq
      subst this
      exact ⟨hvl, hvt⟩
  have hsize : stackSize [(1, t.root)] < nodeSize t.root + 1 := by
    show nodeSize t.root + stackSize [] < nodeSize t.root + 1
    simp [stackSize]
  obtain ⟨fin, hfin, hpost⟩ :=
    buildLoop_post (nodeSize t.root + 1) st0 [(1, t.root)] hinv0 hsize
  have hone : 1 ∈ fin.bc.bits := hpost.bits_grow 1 (by rw [hbits0]; simp)
  have hbitsne : fin.bc.bits ≠ [] := fun hc => by rw [hc] at hone; simp at hone
  have hlast : fin.bc.lastIndexOfOne = some (maxList fin.bc.bits) := by
    cases hcs : fin.bc.bits with
    | nil => exact absurd hcs hbitsne
    | cons a l =>
      unfold BitCache.lastIndexOfOne
      rw [hcs]
  have hun1 : t.buildArrays =
      match buildLoop (nodeSize t.root + 1) st0
          (if t.root.nexts.isEmpty then [] else [(1, t.root)]) with
      | none => none
      | some st =>
        some (resizeTo st.base (match st.bc.lastIndexOfOne with
                                 | none => 256 | some m => m + 256),
              resizeTo st.check (match st.bc.lastIndexOfOne with
                                 | none => 256 | some m => m + 256), st.data) := rfl
  rw [hie] at hun1
  simp only [Bool.false_eq_true, if_false] at hun1
  rw [hfin] at hun1
  dsimp only at hun1
  rw [hlast] at hun1
  dsimp only at hun1
  refine ⟨_, _, _, hun1, ?_, ?_, ?_⟩
  · rw [length_resizeTo, length_resizeTo]
  · rw [length_resizeTo]
    have h1M : 1 ≤ maxList fin.bc.bits := le_maxList hone
    omega
  · exact Emb_resize (by rw [hpost.lenB, hpost.lenC]) hpost.check_assigned
      (fun x hx => le_maxList hx) rfl 1 t.root (hpost.emb (1, t.root) (by simp))
      hone hg (Or.inr hroot)

/-! ### Blob packaging round-trip (from_arrays / from_slice / get_arrays) -/

theorem map_mod_eq_self {l : List Nat} (h : ∀ x ∈ l, x < 2 ^ 32) :
    l.map (· % 2 ^ 32) = l := by
  induction l with
  | nil => rfl
  | cons a t ih =>
    simp only [List.map_cons, List.cons.injEq]
    exact ⟨Nat.mod_eq_of_lt (h a (by simp)), ih (fun x hx => h x (by simp [hx]))⟩

theorem encodeU64_length (x : Nat) : (encodeU64 x).length = 8 := encLE_length 8 x

theorem encodeU32_length (x : Nat) : (encodeU32 x).length = 4 := encLE_length 4 x

theorem flatten_encodeU32_length (l : List Nat) :
    ((l.map encodeU32).flatten).length = 4 * l.length := by
  induction l with
  | nil => rfl
  | cons a t ih =>
    simp only [List.map_cons, List.flatten_cons, List.length_append, ih, List.length_cons,
      encodeU32_length]
    omega

theorem encodeHeader_length (h : DoubleArrayHeader) : (encodeHeader h).length = 40 := by
  simp [encodeHeader, encodeU64_length]

theorem getD_concat_at {pre l post : List Nat} {i k : Nat} (hi : i = pre.length + k)
    (hk : k < l.length) : (pre ++ l ++ post).getD i 0 = l.getD k 0 := by
  subst hi
  rw [List.append_assoc, getD_append_right (by omega) 0]
  have h2 : pre.length + k - pre.length = k := by omega
  rw [h2, getD_append_left hk 0]

theorem u32SliceAt_succ (bytes : List Nat) (off n : Nat) :
    u32SliceAt bytes off (n + 1) =
      (bytes.getD off 0 + 256 * (bytes.getD (off + 1) 0 +
        256 * (bytes.getD (off + 2) 0 + 256 * bytes.getD (off + 3) 0))) ::
      u32SliceAt bytes (off + 4) n := by
  simp only [u32SliceAt, List.range_succ_eq_map, List.map_cons, List.map_map, Nat.mul_zero,
    Nat.add_zero]
  refine congrArg₂ List.cons rfl ?_
  apply List.map_congr_left
  intro j _
  simp only [Function.comp_apply, Nat.succ_eq_add_one]
  have h1 : off + 4 * (j + 1) = off + 4 + 4 * j := by ring
  rw [h1]

theorem u32SliceAt_encode :
    ∀ (l pre post : List Nat), (∀ x ∈ l, x < 2 ^ 32) →
      u32SliceAt (pre ++ (l.map encodeU32).flatten ++ post) pre.length l.length = l
  | [], _, _, _ => rfl
  | x :: xs, pre, post, h => by
    have hx : x < 2 ^ 32 := h x (by simp)
    have hxs : ∀ v ∈ xs, v < 2 ^ 32 := fun v hv => h v (by simp [hv])
    have hexp : encodeU32 x = [x % 256, x / 256 % 256, x / 256 / 256 % 256,
        x / 256 / 256 / 256 % 256] := rfl
    have hassoc : pre ++ ((x :: xs).map encodeU32).flatten ++ post
        = pre ++ encodeU32 x ++ ((xs.map encodeU32).flatten ++ post) := by
      simp [List.map_cons, List.flatten_cons, List.append_assoc]
    simp only [List.length_cons]
    rw [u32SliceAt_succ, hassoc]
    have hk4 : ∀ k, k < 4 → k < (encodeU32 x).length := by
      intro k hk
      rw [encodeU32_length]
      exact hk
    refine congrArg₂ List.cons ?_ ?_
    · rw [getD_concat_at (show pre.length = pre.length + 0 by omega) (hk4 0 (by omega)),
        getD_concat_at (show pre.length + 1 = pre.length + 1 from rfl) (hk4 1 (by omega)),
        getD_concat_at (show pre.length + 2 = pre.length + 2 from rfl) (hk4 2 (by omega)),
        getD_concat_at (show pre.length + 3 = pre.length + 3 from rfl) (hk4 3 (by omega))]
      rw [hexp]
      have v0 : ([x % 256, x / 256 % 256, x / 256 / 256 % 256,
          x / 256 / 256 / 256 % 256] : List Nat).getD 0 0 = x % 256 := rfl
      have v1 : ([x % 256, x / 256 % 256, x / 256 / 256 % 256,
          x / 256 / 256 / 256 % 256] : List Nat).getD 1 0 = x / 256 % 256 := rfl
      have v2 : ([x % 256, x / 256 % 256, x / 256 / 256 % 256,
          x / 256 / 256 / 256 % 256] : List Nat).getD 2 0 = x / 256 / 256 % 256 := rfl
      have v3 : ([x % 256, x / 256 % 256, x / 256 / 256 % 256,
          x / 256 / 256 / 256 % 256] : List Nat).getD 3 0 = x / 256 / 256 / 256 % 256 := rfl
      rw [v0, v1, v2, v3]
      omega
    · have ht := u32SliceAt_encode xs (pre ++ encodeU32 x) post hxs
      rw [List.append_assoc (pre ++ encodeU32 x), List.length_append, encodeU32_length] at ht
      exact ht

theorem getArrays_fromArrays (a b c : List Nat)
    (ha : ∀ x ∈ a, x < 2 ^ 32) (hb : ∀ x ∈ b, x < 2 ^ 32) :
    (DoubleArray.fromArrays a b c).getArrays = .ok (a, b, c) := by
  set A := (a.map encodeU32).flatten with hA
  set B := (b.map encodeU32).flatten with hB
  have hAlen : A.length = 4 * a.length := flatten_encodeU32_length a
  have hBlen : B.length = 4 * b.length := flatten_encodeU32_length b
  set hd : DoubleArrayHeader :=
    ⟨headerSize, headerSize + A.length, headerSize + A.length + B.length,
      a.length, b.length⟩ with hhd
  have hEH : (encodeHeader hd).length = 40 := encodeHeader_length hd
  have hL : (encodeHeader hd ++ A ++ B ++ c).length = 40 + A.length + B.length + c.length := by
    simp only [List.length_append, hEH]
  have f1 : hd.base_idx = 40 := rfl
  have f2 : hd.check_idx = 40 + A.length := rfl
  have f3 : hd.data_idx = 40 + A.length + B.length := rfl
  have f4 : hd.base_len = a.length := rfl
  have f5 : hd.check_len = b.length := rfl
  have hun : (DoubleArray.fromArrays a b c).getArrays =
      (if hd.base_idx ≤ (encodeHeader hd ++ A ++ B ++ c).length ∧
          hd.base_idx + 4 * hd.base_len ≤ (encodeHeader hd ++ A ++ B ++ c).length ∧
          hd.check_idx ≤ (encodeHeader hd ++ A ++ B ++ c).length ∧
          hd.check_idx + 4 * hd.check_len ≤ (encodeHeader hd ++ A ++ B ++ c).length ∧
          hd.data_idx ≤ (encodeHeader hd ++ A ++ B ++ c).length then
        Except.ok (u32SliceAt (encodeHeader hd ++ A ++ B ++ c) hd.base_idx hd.base_len,
          u32SliceAt (encodeHeader hd ++ A ++ B ++ c) hd.check_idx hd.check_len,
          (encodeHeader hd ++ A ++ B ++ c).drop hd.data_idx)
      else Except.error "get_arrays region out of range") := rfl
  have hcond : hd.base_idx ≤ (encodeHeader hd ++ A ++ B ++ c).length ∧
      hd.base_idx + 4 * hd.base_len ≤ (encodeHeader hd ++ A ++ B ++ c).length ∧
      hd.check_idx ≤ (encodeHeader hd ++ A ++ B ++ c).length ∧
      hd.check_idx + 4 * hd.check_len ≤ (encodeHeader hd ++ A ++ B ++ c).length ∧
      hd.data_idx ≤ (encodeHeader hd ++ A ++ B ++ c).length := by
    rw [f1, f2, f3, f4, f5, hL]
    omega
  rw [hun, if_pos hcond, f1, f2, f3, f4, f5]
  have hbase := u32SliceAt_encode a (encodeHeader hd) (B ++ c) ha
  rw [← hA, ← List.append_assoc, hEH] at hbase
  have hcheck := u32SliceAt_encode b (encodeHeader hd ++ A) c hb
  rw [← hB, List.length_append, hEH] at hcheck
  have hdata : (encodeHeader hd ++ A ++ B ++ c).drop (40 + A.length + B.length) = c := by
    have hl3 : (encodeHeader hd ++ A ++ B).length = 40 + A.length + B.length := by
      simp only [List.length_append, hEH]
    rw [← hl3, List.drop_left]
  rw [hbase, hcheck, hdata]

theorem u64At_append (l m : List Nat) (off : Nat) :
    u64At (l ++ m) (l.length + off) = u64At m off := by
  have h : ∀ i j : Nat, i = l.length + (off + j) → (l ++ m).getD i 0 = m.getD (off + j) 0 := by
    intro i j hi
    subst hi
    rw [getD_append_right (by omega) 0]
    congr 1
    omega
  simp only [u64At]
  rw [h (l.length + off) 0 (by omega), h (l.length + off + 1) 1 (by omega),
    h (l.length + off + 2) 2 (by omega), h (l.length + off + 3) 3 (by omega),
    h (l.length + off + 4) 4 (by omega), h (l.length + off + 5) 5 (by omega),
    h (l.length + off + 6) 6 (by omega), h (l.length + off + 7) 7 (by omega)]
  simp only [Nat.add_zero]

theorem u64At_encodeU64 (x : Nat) (rest : List Nat) (hx : x < 2 ^ 64) :
    u64At (encodeU64 x ++ rest) 0 = x := by
  show x % 256 + 256 * (x / 256 % 256 + 256 * (x / 256 / 256 % 256 +
    256 * (x / 256 / 256 / 256 % 256 + 256 * (x / 256 / 256 / 256 / 256 % 256 +
    256 * (x / 256 / 256 / 256 / 256 / 256 % 256 +
    256 * (x / 256 / 256 / 256 / 256 / 256 / 256 % 256 +
    256 * (x / 256 / 256 / 256 / 256 / 256 / 256 / 256 % 256))))))) = x
  omega

theorem u64At_skip8 (x : Nat) (m : List Nat) (off : Nat) :
    u64At (encodeU64 x ++ m) (8 + off) = u64At m off := by
  have h := u64At_append (encodeU64 x) m off
  rw [encodeU64_length] at h
  exact h

theorem decodeHeader_encodeHeader (hd : DoubleArrayHeader) (rest : List Nat)
    (h1 : hd.base_idx < 2 ^ 64) (h2 : hd.check_idx < 2 ^ 64) (h3 : hd.data_idx < 2 ^ 64)
    (h4 : hd.base_len < 2 ^ 64) (h5 : hd.check_len < 2 ^ 64) :
    decodeHeader (encodeHeader hd ++ rest) = hd := by
  obtain ⟨f1, f2, f3, f4, f5⟩ := hd
  simp only [encodeHeader, decodeHeader]
  have hassoc : encodeU64 f1 ++ encodeU64 f2 ++ encodeU64 f3 ++ encodeU64 f4 ++
      encodeU64 f5 ++ rest
      = encodeU64 f1 ++ (encodeU64 f2 ++ (encodeU64 f3 ++ (encodeU64 f4 ++
        (encodeU64 f5 ++ rest)))) := by
    simp [List.append_assoc]
  rw [hassoc]
  simp only [DoubleArrayHeader.mk.injEq]
  refine ⟨?_, ?_, ?_, ?_, ?_⟩
  · exact u64At_encodeU64 f1 _ h1
  · rw [show (8 : Nat) = 8 + 0 from rfl, u64At_skip8]
    exact u64At_encodeU64 f2 _ h2
  · rw [show (16 : Nat) = 8 + (8 + 0) from rfl, u64At_skip8, u64At_skip8]
    exact u64At_encodeU64 f3 _ h3
  · rw [show (24 : Nat) = 8 + (8 + (8 + 0)) from rfl, u64At_skip8, u64At_skip8, u64At_skip8]
    exact u64At_encodeU64 f4 _ h4
  · rw [show (32 : Nat) = 8 + (8 + (8 + (8 + 0))) from rfl, u64At_skip8, u64At_skip8,
      u64At_skip8, u64At_skip8]
    exact u64At_encodeU64 f5 _ h5

/-! ### End-to-end: lookups on an index produced by `to_double_array` -/

theorem toDoubleArray_ok (t : Trie) (hg : Node.Good t.root) (hvl : ValsLt t.root)
    (hvt : valsTotal t.root < 2 ^ 64) (hroot : t.root.nexts ≠ [])
    (hfit : fitsU32 t = true) :
    ∃ B C D, t.toDoubleArray = some (DoubleArray.fromArrays B C D) ∧
      (DoubleArray.fromArrays B C D).getArrays = .ok (B, C, D) ∧
      B.length = C.length ∧ 257 ≤ C.length ∧ Emb B C D 1 t.root := by
  obtain ⟨B, C, D, hba, hBC, h257, hemb⟩ := buildArrays_cons t hg hvl hvt hroot
  obtain ⟨hfB, hfC⟩ := fitsU32_spec hba hfit
  refine ⟨B, C, D, ?_, getArrays_fromArrays B C D hfB hfC, hBC, h257, hemb⟩
  unfold Trie.toDoubleArray
  rw [hba]
  dsimp only
  rw [map_mod_eq_self hfB, map_mod_eq_self hfC]

theorem built_get (t : Trie) (hg : Node.Good t.root) (hvl : ValsLt t.root)
    (hvt : valsTotal t.root < 2 ^ 64) (hroot : t.root.nexts ≠ [])
    (hfit : fitsU32 t = true) (key : List Nat) (hkey : ∀ b ∈ key, b < 255) :
    ∃ da, t.toDoubleArray = some da ∧ da.get key = .ok (t.get key) := by
  obtain ⟨B, C, D, hda, harr, hBC, h257, hemb⟩ := toDoubleArray_ok t hg hvl hvt hroot hfit
  refine ⟨_, hda, ?_⟩
  unfold DoubleArray.get
  rw [harr, okBind]
  dsimp only
  rw [show readArr B 1 = .ok (B.getD 1 0) from if_pos (by omega), okBind]
  exact getAux_emb hBC key 1 t.root hemb hg hkey

theorem built_pfx (t : Trie) (hg : Node.Good t.root) (hvl : ValsLt t.root)
    (hvt : valsTotal t.root < 2 ^ 64) (hroot : t.root.nexts ≠ [])
    (hfit : fitsU32 t = true) (key : List Nat) (hkey : ∀ b ∈ key, b < 255) :
    ∃ da, t.toDoubleArray = some da ∧
      da.pfxSearch key = .ok (pfxSpec key t.root key 0) := by
  obtain ⟨B, C, D, hda, harr, hBC, h257, hemb⟩ := toDoubleArray_ok t hg hvl hvt hroot hfit
  refine ⟨_, hda, ?_⟩
  unfold DoubleArray.pfxSearch
  rw [harr, okBind]
  dsimp only
  rw [show readArr B 1 = .ok (B.getD 1 0) from if_pos (by omega), okBind]
  have h := pfxAux_emb hBC key key 1 t.root 0 [] hemb hg hkey
  rw [h]
  simp

theorem zero_get (n : Nat) (h256 : 257 ≤ n) (key : List Nat) (hkey : ∀ b ∈ key, b < 255) :
    getAux (List.replicate n 0) (List.replicate n 0) [] key 1 0 = .ok none := by
  have hread : ∀ i, i < n → readArr (List.replicate n 0) i = .ok 0 := by
    intro i hi
    unfold readArr
    rw [List.length_replicate, if_pos hi, getD_replicate, if_pos hi]
  cases key with
  | nil =>
    simp only [getAux]
    rw [hread (0 + 255) (by omega), okBind]
    rw [if_neg (by omega)]
  | cons byte rest =>
    have hb : byte < 255 := hkey byte (by simp)
    simp only [getAux]
    rw [hread (0 + byte) (by omega), okBind]
    rw [if_neg (by omega)]

theorem zero_pfx (n : Nat) (h256 : 257 ≤ n) (full key : List Nat)
    (hkey : ∀ b ∈ key, b < 255) (pos : Nat) (acc : List (List Nat × List Nat)) :
    pfxAux (List.replicate n 0) (List.replicate n 0) [] full key 1 0 pos acc = .ok acc := by
  have hread : ∀ i, i < n → readArr (List.replicate n 0) i = .ok 0 := by
    intro i hi
    unfold readArr
    rw [List.length_replicate, if_pos hi, getD_replicate, if_pos hi]
  cases key with
  | nil => simp [pfxAux]
  | cons byte rest =>
    have hb : byte < 255 := hkey byte (by simp)
    simp only [pfxAux]
    rw [hread (0 + byte) (by omega), okBind]
    rw [if_neg (by omega)]

theorem toDoubleArray_nil_lookups (t : Trie) (hroot : t.root.nexts = [])
    (key : List Nat) (hkey : ∀ b ∈ key, b < 255) :
    ∃ da, t.toDoubleArray = some da ∧ da.get key = .ok none ∧
      da.pfxSearch key = .ok [] := by
  have hba := buildArrays_nil t hroot
  have hz : ∀ x ∈ List.replicate 257 (0 : Nat), x < 2 ^ 32 := by
    intro x hx
    have := List.eq_of_mem_replicate hx
    omega
  have harr := getArrays_fromArrays (List.replicate 257 0) (List.replicate 257 0) [] hz hz
  have hr1 : readArr (List.replicate 257 (0 : Nat)) 1 = .ok 0 := by
    unfold readArr
    rw [List.length_replicate, if_pos (by omega), getD_replicate, if_pos (by omega)]
  refine ⟨DoubleArray.fromArrays (List.replicate 257 0) (List.replicate 257 0) [], ?_, ?_, ?_⟩
  · unfold Trie.toDoubleArray
    rw [hba]
    dsimp only
    rw [map_mod_eq_self hz]
  · unfold DoubleArray.get
    rw [harr, okBind]
    dsimp only
    rw [hr1, okBind]
    exact zero_get 257 (by omega) key hkey
  · unfold DoubleArray.pfxSearch
    rw [harr, okBind]
    dsimp only
    rw [hr1, okBind]
    exact zero_pfx 257 (by omega) key key hkey 0 []

theorem insVals_mem {L : List (List Nat × Nat)} {kv : List Nat × Nat} (h : kv ∈ L) :
    kv.2 ∈ insVals L kv.1 := by
  simp only [insVals, List.mem_filterMap]
  exact ⟨kv, h, by rw [if_pos rfl]⟩

/-! ### Auxiliary facts for the claim statements -/

theorem insVals_replicate (n : Nat) (k : List Nat) (v : Nat) :
    insVals (List.replicate n (k, v)) k = List.replicate n v := by
  induction n with
  | zero => rfl
  | succ m ih =>
    have ih2 : List.filterMap (fun kv => if kv.1 = k then some kv.2 else none)
        (List.replicate m (k, v)) = List.replicate m v := ih
    simp [insVals, List.replicate_succ, List.filterMap_cons, ih2]

/-! ### The claims -/

/-- C1 counterexample: insert value 7 for the empty key; the spec promises
that querying every inserted key returns its values, but the built index
answers `ok none` for the empty key even though `[7]` was inserted for it. -/
theorem dary_C1_cex :
    insVals [([], 7)] [] = [7] ∧
    ∃ da, (trieOf [([], 7)]).toDoubleArray = some da ∧ da.get [] = .ok none := by
  refine ⟨rfl, ?_⟩
  rw [show trieOf [([], 7)] = ⟨⟨0, [7], []⟩, 1⟩ from by
    simp [trieOf, Trie.set, Node.setK, Trie.new]]
  obtain ⟨da, hda, hget, _⟩ := toDoubleArray_nil_lookups ⟨⟨0, [7], []⟩, 1⟩ rfl [] (by decide)
  exact ⟨da, hda, hget⟩

/-- C1 (amended): building the index from the insertion sequence `L` and
querying an inserted key returns `some` of exactly the values inserted for
that key, in insertion order — provided the key is nonempty (the claim as
written fails for the empty key, whose root-stored values the build drops;
see the counterexample), the key bytes and values fit their machine types,
and no `as u32` cast in the build truncates. -/
theorem dary_C1_roundtrip (L : List (List Nat × Nat)) (kv : List Nat × Nat)
    (hmem : kv ∈ L) (hne : kv.1 ≠ [])
    (hkeys : ∀ p ∈ L, ∀ b ∈ p.1, b < 255)
    (hvals : ∀ p ∈ L, p.2 < 2 ^ 32)
    (hcount : L.length < 2 ^ 64)
    (hfit : fitsU32 (trieOf L) = true) :
    ∃ da, (trieOf L).toDoubleArray = some da ∧
      da.get kv.1 = .ok (some (insVals L kv.1)) := by
  have hg := good_trieOf L hkeys
  have hvl := valsLt_trieOf L hvals
  have hvt : valsTotal (trieOf L).root < 2 ^ 64 := by
    rw [valsTotal_trieOf]
    exact hcount
  have hroot := trieOf_root_nexts_ne L ⟨kv, hmem, hne⟩
  obtain ⟨da, hda, hget⟩ := built_get (trieOf L) hg hvl hvt hroot hfit kv.1 (hkeys kv hmem)
  refine ⟨da, hda, ?_⟩
  rw [hget, Trie.get_eq_nodeVals, nodeVals_trieOf L hkeys]
  rw [if_neg (List.ne_nil_of_mem (insVals_mem hmem))]

set_option maxRecDepth 1000000 in
/-- C1 witness: the round-trip at the concrete insertion list `[("a", 5)]`. -/
theorem dary_C1_witness :
    ∃ da, (trieOf [([97], 5)]).toDoubleArray = some da ∧
      da.get [97] = .ok (some (insVals [([97], 5)] [97])) :=
  dary_C1_roundtrip [([97], 5)] ([97], 5) (by decide) (by decide) (by decide) (by decide)
    (by decide)
    (by rw [show trieOf [([97], 5)] = ⟨⟨0, [], [⟨97, [5], []⟩]⟩, 1⟩ from by
          simp [trieOf, Trie.set, Node.setK, insertChild, Trie.new]]
        rfl)

/-- C2 counterexample: a well-formed 56-byte blob (header + two-entry BASE
and CHECK, empty DATA) whose BASE entry 1 is 500 loads fine via `from_slice`,
and then `get`, `prefix_search` and the iterator on key `[0]` all hit
`check_arr[500]` — out of range for the 2-entry CHECK — and panic (error)
instead of answering "no match". -/
theorem dary_C2_cex :
    DoubleArray.fromSlice
        (encodeHeader ⟨40, 48, 56, 2, 2⟩ ++ encodeU32 0 ++ encodeU32 500 ++
          encodeU32 0 ++ encodeU32 0) =
      .ok ⟨encodeHeader ⟨40, 48, 56, 2, 2⟩ ++ encodeU32 0 ++ encodeU32 500 ++
          encodeU32 0 ++ encodeU32 0, ⟨40, 48, 56, 2, 2⟩⟩ ∧
    (DoubleArray.get ⟨encodeHeader ⟨40, 48, 56, 2, 2⟩ ++ encodeU32 0 ++ encodeU32 500 ++
        encodeU32 0 ++ encodeU32 0, ⟨40, 48, 56, 2, 2⟩⟩ [0])
      = .error "index out of bounds" ∧
    (DoubleArray.pfxSearch ⟨encodeHeader ⟨40, 48, 56, 2, 2⟩ ++ encodeU32 0 ++ encodeU32 500 ++
        encodeU32 0 ++ encodeU32 0, ⟨40, 48, 56, 2, 2⟩⟩ [0])
      = .error "index out of bounds" ∧
    (DoubleArray.pfxIterCollect ⟨encodeHeader ⟨40, 48, 56, 2, 2⟩ ++ encodeU32 0 ++
        encodeU32 500 ++ encodeU32 0 ++ encodeU32 0, ⟨40, 48, 56, 2, 2⟩⟩ [0])
      = .error "index out of bounds" := by
  refine ⟨rfl, rfl, rfl, rfl⟩

/-- C2 (amended): the lookups perform no bounds checks at all: whenever the
computed slot `base + byte` lies past the end of CHECK, `get`,
`prefix_search` and the iterator's `next` all panic (modelled `.error`)
rather than treating the step as "no match". -/
theorem dary_C2_oob_error (B C D : List Nat) (byte : Nat) (rest : List Nat)
    (idx b pos : Nat) (full : List Nat) (acc : List (List Nat × List Nat))
    (h : C.length ≤ b + byte) :
    getAux B C D (byte :: rest) idx b = .error "index out of bounds" ∧
    pfxAux B C D full (byte :: rest) idx b pos acc = .error "index out of bounds" ∧
    psNextAux B C D full (byte :: rest) idx pos b = .error "index out of bounds" := by
  have hr : readArr C (b + byte) = .error "index out of bounds" := by
    unfold readArr
    rw [if_neg (by omega)]
  refine ⟨?_, ?_, ?_⟩
  · simp only [getAux]
    rw [hr, errBind]
  · simp only [pfxAux]
    rw [hr, errBind]
  · simp only [psNextAux]
    rw [hr, errBind]

/-- C2 witness: the panic at empty arrays and key `[0]`. -/
theorem dary_C2_witness :
    getAux [] [] [] [0] 1 0 = .error "index out of bounds" ∧
    pfxAux [] [] [] [0] [0] 1 0 0 [] = .error "index out of bounds" ∧
    psNextAux [] [] [] [0] [0] 1 0 0 = .error "index out of bounds" :=
  dary_C2_oob_error [] [] [] 0 [] 1 0 0 [0] [] (by decide)

set_option maxRecDepth 1000000 in
/-- C3 counterexample: with `("", 1)` and `("a", 2)` inserted, the empty key
is an inserted key with nonempty values and a byte-prefix of the query "a",
yet `prefix_search("a")` reports only `("a", [2])`. -/
theorem dary_C3_cex :
    insVals [([], 1), ([97], 2)] [] = [1] ∧
    ∃ da, (trieOf [([], 1), ([97], 2)]).toDoubleArray = some da ∧
      da.pfxSearch [97] = .ok [([97], [2])] := by
  refine ⟨rfl, ?_⟩
  rw [show trieOf [([], 1), ([97], 2)] = ⟨⟨0, [1], [⟨97, [2], []⟩]⟩, 2⟩ from by
    simp [trieOf, Trie.set, Node.setK, insertChild, Trie.new]]
  have hgc : Node.Good ⟨97, [2], []⟩ := by
    refine Node.Good.mk _ ?_ ?_ ?_ ?_ <;> simp
  have hg : Node.Good (⟨⟨0, [1], [⟨97, [2], []⟩]⟩, 2⟩ : Trie).root := by
    refine Node.Good.mk _ ?_ ?_ ?_ ?_ <;> simp [hgc]
  have hvc : ValsLt ⟨97, [2], []⟩ := by
    refine ValsLt.mk _ ?_ ?_ <;> simp
  have hvl : ValsLt (⟨⟨0, [1], [⟨97, [2], []⟩]⟩, 2⟩ : Trie).root := by
    refine ValsLt.mk _ ?_ ?_ <;> simp [hvc]
  obtain ⟨da, hda, hpfx⟩ := built_pfx ⟨⟨0, [1], [⟨97, [2], []⟩]⟩, 2⟩ hg hvl
    (by decide) (by simp) (by decide) [97] (by decide)
  refine ⟨da, hda, ?_⟩
  rw [hpfx]
  rfl

/-- C3 (amended): for every inserted key `K ≠ ""` (the claim as written fails
for the empty key, which `prefix_search` never reports; see the
counterexample) and every query having `K` as a byte-prefix,
`prefix_search` reports `(K, values(K))`, and the reported pairs are in
strictly ascending prefix length. -/
theorem dary_C3_pfx_sound (L : List (List Nat × Nat)) (kv : List Nat × Nat)
    (hmem : kv ∈ L) (hne : kv.1 ≠ [])
    (hkeys : ∀ p ∈ L, ∀ b ∈ p.1, b < 255)
    (hvals : ∀ p ∈ L, p.2 < 2 ^ 32) (hcount : L.length < 2 ^ 64)
    (hfit : fitsU32 (trieOf L) = true)
    (rest : List Nat) (hrest : ∀ b ∈ rest, b < 255) :
    ∃ da res, (trieOf L).toDoubleArray = some da ∧
      da.pfxSearch (kv.1 ++ rest) = .ok res ∧
      (kv.1, insVals L kv.1) ∈ res ∧
      res.Pairwise (fun x y => x.1.length < y.1.length) := by
  have hg := good_trieOf L hkeys
  have hvl := valsLt_trieOf L hvals
  have hvt : valsTotal (trieOf L).root < 2 ^ 64 := by
    rw [valsTotal_trieOf]
    exact hcount
  have hroot := trieOf_root_nexts_ne L ⟨kv, hmem, hne⟩
  have hQ : ∀ b ∈ kv.1 ++ rest, b < 255 := by
    intro b hb
    rcases List.mem_append.mp hb with h | h
    · exact hkeys kv hmem b h
    · exact hrest b h
  obtain ⟨da, hda, hpfx⟩ := built_pfx (trieOf L) hg hvl hvt hroot hfit (kv.1 ++ rest) hQ
  refine ⟨da, _, hda, hpfx, ?_, ?_⟩
  · have hnv : nodeVals (trieOf L).root kv.1 = insVals L kv.1 := nodeVals_trieOf L hkeys kv.1
    have hvne : insVals L kv.1 ≠ [] := List.ne_nil_of_mem (insVals_mem hmem)
    cases hgn : (trieOf L).root.getNode kv.1 with
    | none =>
      exfalso
      apply hvne
      rw [← hnv]
      unfold nodeVals
      rw [hgn]
    | some m =>
      have hmv : m.values = insVals L kv.1 := by
        rw [← hnv]
        unfold nodeVals
        rw [hgn]
      have hmem2 := pfxSpec_mem (kv.1 ++ rest) kv.1 rest (trieOf L).root 0 m hgn
        (by rw [hmv]; exact hvne) hne
      rw [Nat.zero_add, List.take_left, hmv] at hmem2
      exact hmem2
  · exact pfxSpec_pairwise (kv.1 ++ rest) (kv.1 ++ rest) (trieOf L).root 0 (by omega)

set_option maxRecDepth 1000000 in
/-- C3 witness: prefix soundness at the concrete list `[("a", 5)]`, query "a". -/
theorem dary_C3_witness :
    ∃ da res, (trieOf [([97], 5)]).toDoubleArray = some da ∧
      da.pfxSearch ([97] ++ []) = .ok res ∧
      ([97], insVals [([97], 5)] [97]) ∈ res ∧
      res.Pairwise (fun x y => x.1.length < y.1.length) :=
  dary_C3_pfx_sound [([97], 5)] ([97], 5) (by decide) (by decide) (by decide) (by decide)
    (by decide)
    (by rw [show trieOf [([97], 5)] = ⟨⟨0, [], [⟨97, [5], []⟩]⟩, 1⟩ from by
          simp [trieOf, Trie.set, Node.setK, insertChild, Trie.new]]
        rfl)
    [] (by decide)

/-- C4: collecting `prefix_search_iter(Q)` into a list yields exactly
`prefix_search(Q)` — same pairs, same order — for every double array
(trusted or not) and every key, error cases included. -/
theorem dary_C4_iter_eq (da : DoubleArray) (key : List Nat) :
    da.pfxIterCollect key = da.pfxSearch key := pfxIter_eq da key

/-- C5 counterexample: after `set("", 7)` the root has values but no
children; `to_double_array` seeds its stack only on `!nexts.is_empty()`, so
the compiled index loses the value and `get("")` answers `none`. -/
theorem dary_C5_cex :
    (Trie.new.set [] 7).root.values = [7] ∧
    (Trie.new.set [] 7).root.nexts.isEmpty = true ∧
    ∃ da, (Trie.new.set [] 7).toDoubleArray = some da ∧ da.get [] = .ok none := by
  have hlit : Trie.new.set [] 7 = ⟨⟨0, [7], []⟩, 1⟩ := by
    simp [Trie.new, Trie.set, Node.setK]
  rw [hlit]
  obtain ⟨da, hda, hget, _⟩ := toDoubleArray_nil_lookups ⟨⟨0, [7], []⟩, 1⟩ rfl [] (by decide)
  exact ⟨rfl, rfl, da, hda, hget⟩

/-- C5 (amended): the build seeds its work stack only when the root has
children (`if !self.root.nexts.is_empty()`), values or not; when the root is
childless every root-stored value is dropped and `get` — on the empty key in
particular — returns `ok none` on the built index. -/
theorem dary_C5_root_dropped (t : Trie) (hroot : t.root.nexts = [])
    (key : List Nat) (hkey : ∀ b ∈ key, b < 255) :
    ∃ da, t.toDoubleArray = some da ∧ da.get key = .ok none := by
  obtain ⟨da, hda, hget, _⟩ := toDoubleArray_nil_lookups t hroot key hkey
  exact ⟨da, hda, hget⟩

/-- C5 witness: the dropped empty-key value at the concrete trie of
`set("", 7)`. -/
theorem dary_C5_witness :
    ∃ da, (Trie.toDoubleArray ⟨⟨0, [7], []⟩, 1⟩) = some da ∧ da.get [] = .ok none :=
  dary_C5_root_dropped ⟨⟨0, [7], []⟩, 1⟩ rfl [] (by decide)

/-- C6 (code bug): `Trie::set` never enforces the documented 256-value cap:
257 insertions on the same key leave a node with 257 stored values and no
error — `set` is total and silently appends. -/
theorem dary_C6_no_cap :
    (nodeVals (trieOf (List.replicate 257 ([97], 0))).root [97]).length = 257 ∧
    256 < 257 := by
  refine ⟨?_, by omega⟩
  rw [nodeVals_trieOf _ ?_, insVals_replicate]
  · exact List.length_replicate 257 0
  · intro kv hkv b hb
    have hkv2 := List.eq_of_mem_replicate hkv
    rw [hkv2] at hb
    simp only [List.mem_singleton] at hb
    omega

/-- C7: on the spec-modelled BitCache, for a nonempty sorted child list whose
slot search is floored at 256 and a cursor that never passes an unoccupied
index, `find_base` succeeds and returns the smallest base placing every child
key in an unoccupied slot (first satisfying base wins), while an empty child
list is the fatal error case (`none`, the source's panic). -/
theorem dary_C7_findBase (n0 : Node) (rest : List Node) (bc : BitCache)
    (hsorted : (n0 :: rest).Pairwise (fun a b => a.key < b.key))
    (hkeys : ∀ c ∈ n0 :: rest, c.key < 256)
    (hcursor : ∀ j, j < bc.cursor → j ∈ bc.bits) :
    findBase [] bc = none ∧
    ∃ b, findBase (n0 :: rest) bc = some b ∧
      (∀ c ∈ n0 :: rest, (b + c.key) ∉ bc.bits) ∧ 256 ≤ b + n0.key ∧
      (∀ b2, 256 ≤ b2 + n0.key → (∀ c ∈ n0 :: rest, (b2 + c.key) ∉ bc.bits) → b ≤ b2) := by
  refine ⟨findBase_nil bc, ?_⟩
  have hs := findBase_isSome (by simp : (n0 :: rest) ≠ []) bc
  obtain ⟨b, hb⟩ := Option.isSome_iff_exists.mp hs
  have hfits := findBase_fits hb
  simp only [findBase] at hb
  refine ⟨b, by simp only [findBase]; exact hb, hfits, ?_, ?_⟩
  · exact (findBaseAux_ge256 (hkeys n0 (by simp)) hb).1
  · intro b2 h256 hfree
    have hcur2 : bc.cursor ≤ b2 + n0.key := by
      by_contra hc
      push_neg at hc
      exact hfree n0 (by simp) (hcursor _ hc)
    apply findBaseAux_min ⟨n0, by simp, rfl⟩ hb b2
    · simp only [Nat.add_zero]
      omega
    · exact hfree

/-- C7 witness: the single child with key byte 97 on a fresh cache. -/
theorem dary_C7_witness :
    findBase [] BitCache.new = none ∧
    ∃ b, findBase [(⟨97, [], []⟩ : Node)] BitCache.new = some b ∧
      (∀ c ∈ [(⟨97, [], []⟩ : Node)], (b + c.key) ∉ BitCache.new.bits) ∧
      256 ≤ b + (⟨97, [], []⟩ : Node).key ∧
      (∀ b2, 256 ≤ b2 + (⟨97, [], []⟩ : Node).key →
        (∀ c ∈ [(⟨97, [], []⟩ : Node)], (b2 + c.key) ∉ BitCache.new.bits) → b ≤ b2) :=
  dary_C7_findBase ⟨97, [], []⟩ [] BitCache.new (by simp) (by decide) (by decide)

/-- C8 counterexample: a 40-byte blob whose header points every region at
offset 999 of the 40-byte mapping — grossly inconsistent with the blob
length — still loads with `ok` from `from_slice`: no MalformedBlob error
exists in the code. -/
theorem dary_C8_cex :
    (encodeHeader ⟨999, 999, 999, 999, 999⟩).length = 40 ∧
    DoubleArray.fromSlice (encodeHeader ⟨999, 999, 999, 999, 999⟩) =
      .ok ⟨encodeHeader ⟨999, 999, 999, 999, 999⟩, ⟨999, 999, 999, 999, 999⟩⟩ ∧
    (encodeHeader ⟨999, 999, 999, 999, 999⟩).length < 999 := by
  exact ⟨rfl, rfl, by decide⟩

/-- C8 (amended): `from_slice` performs no header/length consistency check at
all: every byte slice long enough to hold the 40-byte header loads
successfully with whatever header the bytes spell, however inconsistent with
the blob length; only a mapping shorter than the header itself fails. -/
theorem dary_C8_no_validation (bytes : List Nat) (h : 40 ≤ bytes.length) :
    DoubleArray.fromSlice bytes = .ok ⟨bytes, decodeHeader bytes⟩ := by
  unfold DoubleArray.fromSlice
  rw [if_neg (by simp only [headerSize]; omega)]

/-- C8 witness: forty zero bytes load successfully. -/
theorem dary_C8_witness :
    DoubleArray.fromSlice (List.replicate 40 0) =
      .ok ⟨List.replicate 40 0, decodeHeader (List.replicate 40 0)⟩ :=
  dary_C8_no_validation (List.replicate 40 0) (by decide)

/-- C9: packaging BASE/CHECK/DATA with `from_arrays` and re-parsing the blob
through `from_slice`/`get_arrays` yields back exactly the three inputs
(entries being `u32`s and the blob fitting `usize` offsets). -/
theorem dary_C9_roundtrip (a b c : List Nat)
    (ha : ∀ x ∈ a, x < 2 ^ 32) (hb : ∀ x ∈ b, x < 2 ^ 32)
    (hlen : 40 + 4 * a.length + 4 * b.length < 2 ^ 64) :
    ∃ da, DoubleArray.fromSlice (DoubleArray.fromArrays a b c).bytes = .ok da ∧
      da.getArrays = .ok (a, b, c) := by
  set A := (a.map encodeU32).flatten with hA
  set B := (b.map encodeU32).flatten with hB
  have hAlen : A.length = 4 * a.length := flatten_encodeU32_length a
  have hBlen : B.length = 4 * b.length := flatten_encodeU32_length b
  set hd : DoubleArrayHeader :=
    ⟨headerSize, headerSize + A.length, headerSize + A.length + B.length,
      a.length, b.length⟩ with hhd
  have hbytes : (DoubleArray.fromArrays a b c).bytes = encodeHeader hd ++ A ++ B ++ c := rfl
  have hblen : (encodeHeader hd ++ A ++ B ++ c).length
      = 40 + A.length + B.length + c.length := by
    simp only [List.length_append, encodeHeader_length]
  refine ⟨DoubleArray.fromArrays a b c, ?_, getArrays_fromArrays a b c ha hb⟩
  unfold DoubleArray.fromSlice
  rw [hbytes]
  rw [if_neg (by rw [hblen]; simp only [headerSize]; omega)]
  have hdec : decodeHeader (encodeHeader hd ++ A ++ B ++ c) = hd := by
    have hassoc : encodeHeader hd ++ A ++ B ++ c = encodeHeader hd ++ (A ++ (B ++ c)) := by
      simp [List.append_assoc]
    rw [hassoc]
    exact decodeHeader_encodeHeader hd (A ++ (B ++ c))
      (by show (40 : Nat) < 2 ^ 64; omega)
      (by show 40 + A.length < 2 ^ 64; omega)
      (by show 40 + A.length + B.length < 2 ^ 64; omega)
      (by show a.length < 2 ^ 64; omega)
      (by show b.length < 2 ^ 64; omega)
  rw [hdec]
  rfl

/-- C9 witness: the round-trip at `([5], [6], [7])`. -/
theorem dary_C9_witness :
    ∃ da, DoubleArray.fromSlice (DoubleArray.fromArrays [5] [6] [7]).bytes = .ok da ∧
      da.getArrays = .ok ([5], [6], [7]) :=
  dary_C9_roundtrip [5] [6] [7] (by decide) (by decide) (by decide)

/-- C10: on an index produced by `to_double_array` from a `set` sequence
(byte keys, `u32` values, no `as u32` truncation), every BASE/CHECK access
that `get`, `prefix_search` and the collected iterator make is in bounds:
all three lookups return `ok` for every byte key — the final
`resize(last_index_of_one + 256)` keeps `base + b` and `base + 0xFF` in
range on every reachable node. -/
theorem dary_C10_inbounds (L : List (List Nat × Nat))
    (hkeys : ∀ p ∈ L, ∀ b ∈ p.1, b < 255) (hvals : ∀ p ∈ L, p.2 < 2 ^ 32)
    (hcount : L.length < 2 ^ 64) (hfit : fitsU32 (trieOf L) = true)
    (key : List Nat) (hkey : ∀ b ∈ key, b < 255) :
    ∃ da, (trieOf L).toDoubleArray = some da ∧
      (∃ r, da.get key = .ok r) ∧ (∃ r, da.pfxSearch key = .ok r) ∧
      (∃ r, da.pfxIterCollect key = .ok r) := by
  by_cases hroot : (trieOf L).root.nexts = []
  · obtain ⟨da, hda, hget, hpfx⟩ := toDoubleArray_nil_lookups (trieOf L) hroot key hkey
    have hiter : da.pfxIterCollect key = .ok [] := by
      rw [pfxIter_eq]
      exact hpfx
    exact ⟨da, hda, ⟨_, hget⟩, ⟨_, hpfx⟩, ⟨_, hiter⟩⟩
  · have hg := good_trieOf L hkeys
    have hvl := valsLt_trieOf L hvals
    have hvt : valsTotal (trieOf L).root < 2 ^ 64 := by
      rw [valsTotal_trieOf]
      exact hcount
    obtain ⟨da, hda, hget⟩ := built_get (trieOf L) hg hvl hvt hroot hfit key hkey
    obtain ⟨da2, hda2, hpfx⟩ := built_pfx (trieOf L) hg hvl hvt hroot hfit key hkey
    rw [hda] at hda2
    injection hda2 with hdd
    subst hdd
    have hiter : da.pfxIterCollect key = .ok (pfxSpec key (trieOf L).root key 0) := by
      rw [pfxIter_eq]
      exact hpfx
    exact ⟨da, hda, ⟨_, hget⟩, ⟨_, hpfx⟩, ⟨_, hiter⟩⟩

set_option maxRecDepth 1000000 in
/-- C10 witness: the three lookups at the concrete index of `[("a", 5)]`. -/
theorem dary_C10_witness :
    ∃ da, (trieOf [([97], 5)]).toDoubleArray = some da ∧
      (∃ r, da.get [97] = .ok r) ∧ (∃ r, da.pfxSearch [97] = .ok r) ∧
      (∃ r, da.pfxIterCollect [97] = .ok r) :=
  dary_C10_inbounds [([97], 5)] (by decide) (by decide) (by decide)
    (by rw [show trieOf [([97], 5)] = ⟨⟨0, [], [⟨97, [5], []⟩]⟩, 1⟩ from by
          simp [trieOf, Trie.set, Node.setK, insertChild, Trie.new]]
        rfl)
    [97] (by decide)

end Dary
